import Mathlib

/-!
Shallow embedding of the `smiles-parser` repository (a SMILES line-notation
tokenizer and token parser written in Rust) together with proofs about the
claims of its specification.

Conventions of the embedding:
* Rust strings are `List Char`; byte offsets are recovered through
  `Char.utf8Size`, matching `str::char_indices` / `char::len_utf8`.
* Machine integers are `Nat` / `Int` with the overflow checks of the source
  written out explicitly (`u32` checked arithmetic bounded by `4294967295`,
  `u8` by `255`, `i8` by `127`, `u16` by `65535`).
* Fallible Rust functions returning `Result` become `Except`; `Option` stays
  `Option`.
* The mutable `TokenIter` (a peekable `CharIndices` plus an `in_bracket`
  flag) is threaded explicitly: every consuming helper takes the list of
  remaining characters and returns its result together with the new list of
  remaining characters (and, where the source mutates it, the bracket flag).
* The `Iterator::next` loop is modelled with a fuel argument; the fuel
  `s.length` is always sufficient because every emitted item consumes at
  least one character.
* `todo!()` macros in the unfinished second-pass parser are modelled by the
  dedicated outcome `ParseOutcome.incomplete` (in Rust they panic).
-/

deriving instance DecidableEq for Except

/-- The periodic table, standing in for the external `elements_rs::Element`
collaborator (the element service is outside this repository; the spec treats
it as an opaque service resolving one- or two-character symbols). -/
inductive Element where
  | H | He | Li | Be | B | C | N | O | F | Ne
  | Na | Mg | Al | Si | P | S | Cl | Ar | K | Ca
  | Sc | Ti | V | Cr | Mn | Fe | Co | Ni | Cu | Zn
  | Ga | Ge | As | Se | Br | Kr | Rb | Sr | Y | Zr
  | Nb | Mo | Tc | Ru | Rh | Pd | Ag | Cd | In | Sn
  | Sb | Te | I | Xe | Cs | Ba | La | Ce | Pr | Nd
  | Pm | Sm | Eu | Gd | Tb | Dy | Ho | Er | Tm | Yb
  | Lu | Hf | Ta | W | Re | Os | Ir | Pt | Au | Hg
  | Tl | Pb | Bi | Po | At | Rn | Fr | Ra | Ac | Th
  | Pa | U | Np | Pu | Am | Cm | Bk | Cf | Es | Fm
  | Md | No | Lr | Rf | Db | Sg | Bh | Hs | Mt | Ds
  | Rg | Cn | Nh | Fl | Mc | Lv | Ts | Og
  deriving DecidableEq, Repr

/-- Source `elements_rs`' `Element::from_str`: resolve a properly capitalised one- or
two-letter symbol to an element; unknown symbols fail. -/
def Element.from_str (s : String) : Option Element :=
  match s.data with
  | ['H'] => some .H
  | ['H', 'e'] => some .He
  | ['L', 'i'] => some .Li
  | ['B', 'e'] => some .Be
  | ['B'] => some .B
  | ['C'] => some .C
  | ['N'] => some .N
  | ['O'] => some .O
  | ['F'] => some .F
  | ['N', 'e'] => some .Ne
  | ['N', 'a'] => some .Na
  | ['M', 'g'] => some .Mg
  | ['A', 'l'] => some .Al
  | ['S', 'i'] => some .Si
  | ['P'] => some .P
  | ['S'] => some .S
  | ['C', 'l'] => some .Cl
  | ['A', 'r'] => some .Ar
  | ['K'] => some .K
  | ['C', 'a'] => some .Ca
  | ['S', 'c'] => some .Sc
  | ['T', 'i'] => some .Ti
  | ['V'] => some .V
  | ['C', 'r'] => some .Cr
  | ['M', 'n'] => some .Mn
  | ['F', 'e'] => some .Fe
  | ['C', 'o'] => some .Co
  | ['N', 'i'] => some .Ni
  | ['C', 'u'] => some .Cu
  | ['Z', 'n'] => some .Zn
  | ['G', 'a'] => some .Ga
  | ['G', 'e'] => some .Ge
  | ['A', 's'] => some .As
  | ['S', 'e'] => some .Se
  | ['B', 'r'] => some .Br
  | ['K', 'r'] => some .Kr
  | ['R', 'b'] => some .Rb
  | ['S', 'r'] => some .Sr
  | ['Y'] => some .Y
  | ['Z', 'r'] => some .Zr
  | ['N', 'b'] => some .Nb
  | ['M', 'o'] => some .Mo
  | ['T', 'c'] => some .Tc
  | ['R', 'u'] => some .Ru
  | ['R', 'h'] => some .Rh
  | ['P', 'd'] => some .Pd
  | ['A', 'g'] => some .Ag
  | ['C', 'd'] => some .Cd
  | ['I', 'n'] => some .In
  | ['S', 'n'] => some .Sn
  | ['S', 'b'] => some .Sb
  | ['T', 'e'] => some .Te
  | ['I'] => some .I
  | ['X', 'e'] => some .Xe
  | ['C', 's'] => some .Cs
  | ['B', 'a'] => some .Ba
  | ['L', 'a'] => some .La
  | ['C', 'e'] => some .Ce
  | ['P', 'r'] => some .Pr
  | ['N', 'd'] => some .Nd
  | ['P', 'm'] => some .Pm
  | ['S', 'm'] => some .Sm
  | ['E', 'u'] => some .Eu
  | ['G', 'd'] => some .Gd
  | ['T', 'b'] => some .Tb
  | ['D', 'y'] => some .Dy
  | ['H', 'o'] => some .Ho
  | ['E', 'r'] => some .Er
  | ['T', 'm'] => some .Tm
  | ['Y', 'b'] => some .Yb
  | ['L', 'u'] => some .Lu
  | ['H', 'f'] => some .Hf
  | ['T', 'a'] => some .Ta
  | ['W'] => some .W
  | ['R', 'e'] => some .Re
  | ['O', 's'] => some .Os
  | ['I', 'r'] => some .Ir
  | ['P', 't'] => some .Pt
  | ['A', 'u'] => some .Au
  | ['H', 'g'] => some .Hg
  | ['T', 'l'] => some .Tl
  | ['P', 'b'] => some .Pb
  | ['B', 'i'] => some .Bi
  | ['P', 'o'] => some .Po
  | ['A', 't'] => some .At
  | ['R', 'n'] => some .Rn
  | ['F', 'r'] => some .Fr
  | ['R', 'a'] => some .Ra
  | ['A', 'c'] => some .Ac
  | ['T', 'h'] => some .Th
  | ['P', 'a'] => some .Pa
  | ['U'] => some .U
  | ['N', 'p'] => some .Np
  | ['P', 'u'] => some .Pu
  | ['A', 'm'] => some .Am
  | ['C', 'm'] => some .Cm
  | ['B', 'k'] => some .Bk
  | ['C', 'f'] => some .Cf
  | ['E', 's'] => some .Es
  | ['F', 'm'] => some .Fm
  | ['M', 'd'] => some .Md
  | ['N', 'o'] => some .No
  | ['L', 'r'] => some .Lr
  | ['R', 'f'] => some .Rf
  | ['D', 'b'] => some .Db
  | ['S', 'g'] => some .Sg
  | ['B', 'h'] => some .Bh
  | ['H', 's'] => some .Hs
  | ['M', 't'] => some .Mt
  | ['D', 's'] => some .Ds
  | ['R', 'g'] => some .Rg
  | ['C', 'n'] => some .Cn
  | ['N', 'h'] => some .Nh
  | ['F', 'l'] => some .Fl
  | ['M', 'c'] => some .Mc
  | ['L', 'v'] => some .Lv
  | ['T', 's'] => some .Ts
  | ['O', 'g'] => some .Og
  | _ => none

/-- Source `bond.rs` / `bond/mod.rs`: the `Bond` enumeration. -/
inductive Bond where
  | Single | Double | Triple | Quadruple | Aromatic | Up | Down
  deriving DecidableEq, Repr

/-- Source `Bond::default()` is `Single`. -/
def Bond.default : Bond := .Single

/-- Source `atom_symbol.rs`: an element, the `*` wildcard, or the `Unspecified`
default sentinel. -/
inductive AtomSymbol where
  | Element (e : Element)
  | WildCard
  | Unspecified
  deriving DecidableEq, Repr

/-- Source `errors.rs`: the flat `SmilesError` enumeration.  The payload of
`ElementsRs` (a wrapped `elements_rs` error) is irrelevant to the claims and
is modelled as payload-free. -/
inductive SmilesError where
  | BondInBracket (b : Bond)
  | ChargeOverflow (c : Int)
  | ChargeUnderflow (c : Int)
  | ElementRequiresBrackets
  | ElementsRs
  | InvalidAromaticElement (e : Element)
  | InvalidChirality
  | InvalidClass
  | InvalidElementName (c : Char)
  | InvalidIsotope
  | InvalidNumber
  | IntegerOverflow
  | InvalidUnbracketedAtom (a : AtomSymbol)
  | InvalidRingNumber
  | InvalidNonBondToken
  | MissingBracketElement
  | MissingElement
  | NonBondInBracket
  | RingNumberOverflow (n : Nat)
  | UnexpectedBracketedState
  | UnexpectedEndOfString
  | UnexpectedCharacter (c : Char)
  | UnexpectedColon
  | UnexpectedDash
  | UnexpectedPercent
  | UnexpectedLeftBracket
  | UnexpectedRightBracket
  | UnclosedBracket
  deriving DecidableEq, Repr

/-- Source `bracketed/charge.rs`: newtype around `i8`. -/
structure Charge where
  val : Int
  deriving DecidableEq, Repr

/-- Source `Charge::try_new`: accept `-15..=15`, otherwise report underflow for
negative values and overflow for the rest (`i8::is_negative`). -/
def Charge.try_new (num : Int) : Except SmilesError Charge :=
  if -15 ≤ num ∧ num ≤ 15 then .ok ⟨num⟩
  else if num < 0 then .error (.ChargeUnderflow num)
  else .error (.ChargeOverflow num)

/-- Source `Charge::get`. -/
def Charge.get (c : Charge) : Int := c.val

/-- Source `Charge::default()` is `0`. -/
def Charge.default : Charge := ⟨0⟩

/-- Source `ring_num.rs`: newtype around `u8`. -/
structure RingNum where
  val : Nat
  deriving DecidableEq, Repr

/-- Source `RingNum::try_new`: accept `0..=99`, otherwise `RingNumberOverflow`. -/
def RingNum.try_new (num : Nat) : Except SmilesError RingNum :=
  if num ≤ 99 then .ok ⟨num⟩ else .error (.RingNumberOverflow num)

/-- Source `RingNum::get`. -/
def RingNum.get (r : RingNum) : Nat := r.val

/-- Source `bracketed/hydrogen_count.rs`. -/
inductive HydrogenCount where
  | Unspecified
  | Explicit (n : Nat)
  deriving DecidableEq, Repr

/-- Source `HydrogenCount::new`. -/
def HydrogenCount.new (hydrogens : Option Nat) : HydrogenCount :=
  match hydrogens with
  | some h => .Explicit h
  | none => .Unspecified

/-- Source `bracketed/chirality.rs`: the chirality tags. -/
inductive Chirality where
  | At
  | AtAt
  | TH (n : Nat)
  | AL (n : Nat)
  | SP (n : Nat)
  | TB (n : Nat)
  | OH (n : Nat)
  deriving DecidableEq, Repr

/-- Source `Chirality::try_th` (range 1..=2). -/
def Chirality.try_th (num : Nat) : Except SmilesError Chirality :=
  if 1 ≤ num ∧ num ≤ 2 then .ok (.TH num) else .error .InvalidChirality

/-- Source `Chirality::try_al` (range 1..=2). -/
def Chirality.try_al (num : Nat) : Except SmilesError Chirality :=
  if 1 ≤ num ∧ num ≤ 2 then .ok (.AL num) else .error .InvalidChirality

/-- Source `Chirality::try_sp` (range 1..=3). -/
def Chirality.try_sp (num : Nat) : Except SmilesError Chirality :=
  if 1 ≤ num ∧ num ≤ 3 then .ok (.SP num) else .error .InvalidChirality

/-- Source `Chirality::try_tb` (range 1..=20). -/
def Chirality.try_tb (num : Nat) : Except SmilesError Chirality :=
  if 1 ≤ num ∧ num ≤ 20 then .ok (.TB num) else .error .InvalidChirality

/-- Source `Chirality::try_oh` (range 1..=30). -/
def Chirality.try_oh (num : Nat) : Except SmilesError Chirality :=
  if 1 ≤ num ∧ num ≤ 30 then .ok (.OH num) else .error .InvalidChirality

/-- Source `unbracketed.rs`: symbol plus aromatic flag. -/
structure UnbracketedAtom where
  symbol : AtomSymbol
  aromatic : Bool
  deriving DecidableEq, Repr

/-- Source `bracketed/bracket_atom.rs`: the seven fields of a bracketed atom.  The
source field `class` is renamed `class_num` because `class` is a Lean
keyword. -/
structure BracketAtom where
  symbol : AtomSymbol
  isotope_mass_number : Option Nat
  aromatic : Bool
  hydrogens : HydrogenCount
  charge : Charge
  class_num : Nat
  chirality : Option Chirality
  deriving DecidableEq, Repr

/-- Source `BracketAtomBuilder`: wraps a `BracketAtom` that is mutated by the
`with_*` setters. -/
structure BracketAtomBuilder where
  bracket_atom : BracketAtom
  deriving DecidableEq, Repr

/-- Source `BracketAtom::builder()`: all fields at their defaults. -/
def BracketAtom.builder : BracketAtomBuilder :=
  ⟨{ symbol := .Unspecified
     isotope_mass_number := none
     aromatic := false
     hydrogens := .Unspecified
     charge := Charge.default
     class_num := 0
     chirality := none }⟩

/-- Source `BracketAtomBuilder::with_isotope`. -/
def BracketAtomBuilder.with_isotope (b : BracketAtomBuilder) (iso : Nat) :
    BracketAtomBuilder :=
  ⟨{ b.bracket_atom with isotope_mass_number := some iso }⟩

/-- Source `BracketAtomBuilder::with_symbol`. -/
def BracketAtomBuilder.with_symbol (b : BracketAtomBuilder) (symbol : AtomSymbol) :
    BracketAtomBuilder :=
  ⟨{ b.bracket_atom with symbol := symbol }⟩

/-- Source `BracketAtomBuilder::with_aromatic`. -/
def BracketAtomBuilder.with_aromatic (b : BracketAtomBuilder) (aromatic : Bool) :
    BracketAtomBuilder :=
  ⟨{ b.bracket_atom with aromatic := aromatic }⟩

/-- Source `BracketAtomBuilder::with_hydrogens`. -/
def BracketAtomBuilder.with_hydrogens (b : BracketAtomBuilder) (h_count : HydrogenCount) :
    BracketAtomBuilder :=
  ⟨{ b.bracket_atom with hydrogens := h_count }⟩

/-- Source `BracketAtomBuilder::with_charge`. -/
def BracketAtomBuilder.with_charge (b : BracketAtomBuilder) (charge : Charge) :
    BracketAtomBuilder :=
  ⟨{ b.bracket_atom with charge := charge }⟩

/-- Source `BracketAtomBuilder::with_class` (field renamed, see `BracketAtom`). -/
def BracketAtomBuilder.with_class_num (b : BracketAtomBuilder) (c : Nat) :
    BracketAtomBuilder :=
  ⟨{ b.bracket_atom with class_num := c }⟩

/-- Source `BracketAtomBuilder::with_chiral`. -/
def BracketAtomBuilder.with_chiral (b : BracketAtomBuilder) (chirality : Chirality) :
    BracketAtomBuilder :=
  ⟨{ b.bracket_atom with chirality := some chirality }⟩

/-- Source `BracketAtomBuilder::symbol`. -/
def BracketAtomBuilder.symbol (b : BracketAtomBuilder) : AtomSymbol :=
  b.bracket_atom.symbol

/-- Source `BracketAtomBuilder::build`: copies every field into the result. -/
def BracketAtomBuilder.build (b : BracketAtomBuilder) : BracketAtom :=
  { symbol := b.bracket_atom.symbol
    aromatic := b.bracket_atom.aromatic
    isotope_mass_number := b.bracket_atom.isotope_mass_number
    hydrogens := b.bracket_atom.hydrogens
    charge := b.bracket_atom.charge
    class_num := b.bracket_atom.class_num
    chirality := b.bracket_atom.chirality }

/-- Source `token.rs`: the token kinds. -/
inductive Token where
  | NonBond
  | BracketedAtom (a : BracketAtom)
  | UnbracketedAtom (a : UnbracketedAtom)
  | Bond (b : Bond)
  | LeftParentheses
  | RightParentheses
  | RingClosure (r : RingNum)
  deriving DecidableEq, Repr

/-- Source `TokenWithSpan`: a token with its half-open byte span (`stop` is the
source's `span.end`; `end` is a Lean keyword). -/
structure TokenWithSpan where
  token : Token
  start : Nat
  stop : Nat
  deriving DecidableEq, Repr

/-- Source `SmilesErrorWithSpan`: an error with its half-open byte span. -/
structure SmilesErrorWithSpan where
  error : SmilesError
  start : Nat
  stop : Nat
  deriving DecidableEq, Repr

/-- Source `token_iter.rs` `aromatic_from_element`: the aromaticity whitelist,
asymmetric between bracketed and unbracketed context. -/
def aromatic_from_element (in_bracket : Bool) (element : Element) :
    Except SmilesError Bool :=
  let allowed : Bool :=
    if in_bracket then
      match element with
      | .B | .C | .N | .O | .P | .S | .Se | .As => true
      | _ => false
    else
      match element with
      | .B | .C | .N | .O | .S | .P => true
      | _ => false
  if allowed then .ok true else .error (.InvalidAromaticElement element)

/-- Source `token_iter.rs` `valid_unbracketed`: the organic subset plus the
wildcard. -/
def valid_unbracketed (symbol : AtomSymbol) : Bool :=
  match symbol with
  | .Element e =>
    match e with
    | .B | .C | .N | .O | .P | .S | .F | .Cl | .Br | .I => true
    | _ => false
  | .WildCard => true
  | .Unspecified => false

/-- Maximum of Rust's `u32`, the accumulator type of `try_fold_number`. -/
def u32_max : Nat := 4294967295

/-- Source `token_iter.rs` `try_fold_number` loop body: greedily consume ASCII
digits, accumulating with checked multiply-and-add into a `u32`; a checked
overflow aborts immediately (the offending digit already consumed).  On exit
the accumulated value is converted to the target type `B`, whose maximum
`maxB` parameterises this embedding (`u8` 255, `i8` 127, `u16` 65535). -/
def try_fold_number_go (maxB : Nat) : List Char → Nat → Bool →
    Option (Except SmilesError Nat) × List Char
  | [], amount, seen_any =>
    (if seen_any then
        some (if amount ≤ maxB then .ok amount else .error .IntegerOverflow)
      else none, [])
  | c :: r, amount, seen_any =>
    if c.isDigit then
      if amount * 10 + (c.toNat - 48) ≤ u32_max then
        try_fold_number_go maxB r (amount * 10 + (c.toNat - 48)) true
      else (some (.error .IntegerOverflow), r)
    else
      (if seen_any then
          some (if amount ≤ maxB then .ok amount else .error .IntegerOverflow)
        else none, c :: r)

/-- Source `token_iter.rs` `try_fold_number`. -/
def try_fold_number (maxB : Nat) (s : List Char) :
    Option (Except SmilesError Nat) × List Char :=
  try_fold_number_go maxB s 0 false

/-- One-character tail of `try_element_from_first` (the code after both
two-character attempts have fallen through): resolve the single character,
upper-cased for an aromatic candidate, and re-validate aromaticity for
lowercase leads.  Consumes nothing, hence no stream threading. -/
def one_char_element (in_bracket : Bool) (char_1 : Char) :
    Except SmilesError (AtomSymbol × Bool) :=
  let one := if char_1.isLower then String.mk [char_1.toUpper] else String.mk [char_1]
  match Element.from_str one with
  | some element =>
    if char_1.isLower then
      match aromatic_from_element in_bracket element with
      | .ok aromatic => .ok (.Element element, aromatic)
      | .error e => .error e
    else .ok (.Element element, false)
  | none => .error (.InvalidElementName char_1)

/-- Source `token_iter.rs` `try_element_from_first`: `char_1` has already been
consumed; `s` is the remaining stream.  Two-character resolution is attempted
first when the peeked second character is alphabetic and lowercase, aromatic
candidates (lowercase lead) being upper-cased and re-validated against the
whitelist; otherwise fall back to one-character resolution. -/
def try_element_from_first (in_bracket : Bool) (char_1 : Char) (s : List Char) :
    Except SmilesError (AtomSymbol × Bool) × List Char :=
  if char_1 = '*' then (.ok (.WildCard, false), s)
  else if !char_1.isAlpha then (.error .MissingElement, s)
  else
    match s with
    | char_2 :: rest =>
      if char_2.isAlpha && char_1.isLower && char_2.isLower then
        match Element.from_str (String.mk [char_1.toUpper, char_2]) with
        | some element =>
          match aromatic_from_element in_bracket element with
          | .ok aromatic => (.ok (.Element element, aromatic), rest)
          | .error e => (.error e, rest)
        | none => (one_char_element in_bracket char_1, char_2 :: rest)
      else if char_2.isAlpha && !char_1.isLower && char_2.isLower then
        match Element.from_str (String.mk [char_1, char_2]) with
        | some element => (.ok (.Element element, false), rest)
        | none => (one_char_element in_bracket char_1, char_2 :: rest)
      else (one_char_element in_bracket char_1, char_2 :: rest)
    | [] => (one_char_element in_bracket char_1, [])

/-- Source `token_iter.rs` `try_element`: consume the first character and
resolve from it. -/
def try_element (in_bracket : Bool) (s : List Char) :
    Except SmilesError (AtomSymbol × Bool) × List Char :=
  match s with
  | [] => (.error .MissingElement, [])
  | char_1 :: s1 => try_element_from_first in_bracket char_1 s1

/-- Shared shape of the five chirality call sites
`try_fold_number::<u8>(stream).ok_or(InvalidChirality)??` followed by a
range-checking constructor. -/
def chirality_fold (s : List Char) (mk : Nat → Except SmilesError Chirality) :
    Except SmilesError (Option Chirality) × List Char :=
  match try_fold_number 255 s with
  | (none, r) => (.error .InvalidChirality, r)
  | (some (.error e), r) => (.error e, r)
  | (some (.ok num), r) =>
    match mk num with
    | .ok ch => (.ok (some ch), r)
    | .error e => (.error e, r)

/-- Body of `try_chirality`'s `'T'` arm.  The source peeks again without
having consumed the `'T'`, so the whole stream from just after the `@` (here
`s1`) is re-examined: its head decides between the `'H'`/`'B'` fold arms. -/
def chirality_tail_t (s1 : List Char) :
    Except SmilesError (Option Chirality) × List Char :=
  match s1 with
  | 'H' :: s3 => chirality_fold s3 Chirality.try_th
  | 'B' :: s3 => chirality_fold s3 Chirality.try_tb
  | [] => (.error .UnexpectedEndOfString, s1)
  | _ => (.error .InvalidChirality, s1)

/-- Body of `try_chirality`'s `'A' | 'S'` arm after the letter was consumed:
peek for `'P'`. -/
def chirality_tail_sp (s2 : List Char) :
    Except SmilesError (Option Chirality) × List Char :=
  match s2 with
  | 'P' :: s3 => chirality_fold s3 Chirality.try_sp
  | [] => (.error .UnexpectedEndOfString, s2)
  | _ => (.error .InvalidChirality, s2)

/-- Body of `try_chirality`'s `'O'` arm after the letter was consumed: peek
for `'H'`. -/
def chirality_tail_oh (s2 : List Char) :
    Except SmilesError (Option Chirality) × List Char :=
  match s2 with
  | 'H' :: s3 => chirality_fold s3 Chirality.try_oh
  | [] => (.error .UnexpectedEndOfString, s2)
  | _ => (.error .InvalidChirality, s2)

/-- Body of `try_chirality` after the leading `@` was consumed: the peeked
second character decides the sub-form. -/
def chirality_after_at (s1 : List Char) :
    Except SmilesError (Option Chirality) × List Char :=
  match s1 with
  | [] => (.error .UnexpectedEndOfString, [])
  | char_2 :: s2 =>
    if char_2 = '@' then (.ok (some .AtAt), s2)
    else if char_2 = 'T' then
      -- the source peeks again here without having consumed the 'T'
      chirality_tail_t (char_2 :: s2)
    else if char_2 = 'A' || char_2 = 'S' then chirality_tail_sp s2
    else if char_2 = 'O' then chirality_tail_oh s2
    else if char_2 = 'H' || char_2 = '-' || char_2 = '+' || char_2 = ':' ||
        char_2 = ']' then
      (.ok (some .At), char_2 :: s2)
    else (.error .InvalidChirality, char_2 :: s2)

/-- Source `token_iter.rs` `try_chirality`.  A leading `@` is required (else
`none` is returned without consumption); the arm bodies are the named
`chirality_after_at` / `chirality_tail_*` helpers above, factored out of the
source's nested matches. -/
def try_chirality (s : List Char) : Except SmilesError (Option Chirality) × List Char :=
  match s with
  | '@' :: s1 => chirality_after_at s1
  | _ => (.ok none, s)

/-- Source `token_iter.rs` `hydrogen_count`: a leading `H` means an explicit
count (the folded digits, or exactly 1 when no digit follows). -/
def hydrogen_count (s : List Char) : Except SmilesError HydrogenCount × List Char :=
  match s with
  | 'H' :: s1 =>
    match try_fold_number 255 s1 with
    | (some (.ok h), r) => (.ok (HydrogenCount.new (some h)), r)
    | (some (.error e), r) => (.error e, r)
    | (none, r) => (.ok (HydrogenCount.new (some 1)), r)
  | _ => (.ok .Unspecified, s)

/-- Body of `try_charge` after a consumed `-` sign: a second `-` means
magnitude 2, digits mean the folded magnitude (negated), nothing means 1. -/
def charge_after_minus (s1 : List Char) : Except SmilesError Charge × List Char :=
  match s1 with
  | '-' :: s2 => (Charge.try_new (-2), s2)
  | _ =>
    match try_fold_number 127 s1 with
    | (some (.ok n), r) => (Charge.try_new (-(n : Int)), r)
    | (some (.error e), r) => (.error e, r)
    | (none, r) => (Charge.try_new (-1), r)

/-- Body of `try_charge` after a consumed `+` sign. -/
def charge_after_plus (s1 : List Char) : Except SmilesError Charge × List Char :=
  match s1 with
  | '+' :: s2 => (Charge.try_new 2, s2)
  | _ =>
    match try_fold_number 127 s1 with
    | (some (.ok n), r) => (Charge.try_new (n : Int), r)
    | (some (.error e), r) => (.error e, r)
    | (none, r) => (Charge.try_new 1, r)

/-- Source `token_iter.rs` `try_charge`: a doubled sign means magnitude 2, a
sign followed by digits the folded magnitude, a lone sign magnitude 1; the
sign-arm bodies are the named helpers above. -/
def try_charge (s : List Char) : Except SmilesError Charge × List Char :=
  match s with
  | '-' :: s1 => charge_after_minus s1
  | '+' :: s1 => charge_after_plus s1
  | _ => (.ok Charge.default, s)

/-- Source `token_iter.rs` `try_class` (named after the renamed field): a
leading `:` requires a following integer fold. -/
def try_class_num (s : List Char) : Except SmilesError Nat × List Char :=
  match s with
  | ':' :: s1 =>
    match try_fold_number 65535 s1 with
    | (some res, r) => (res, r)
    | (none, r) => (.error .InvalidClass, r)
  | _ => (.ok 0, s)

/-- Source `token_iter.rs` `try_bond`: resolve a bond character, each
forbidden inside brackets with its own error. -/
def try_bond (c : Char) (bracket : Bool) : Except SmilesError Token :=
  if c = '-' then
    if bracket then .error .UnexpectedDash else .ok (.Bond .Single)
  else if c = '=' then
    if bracket then .error (.BondInBracket .Double) else .ok (.Bond .Double)
  else if c = '#' then
    if bracket then .error (.BondInBracket .Triple) else .ok (.Bond .Triple)
  else if c = '$' then
    if bracket then .error (.BondInBracket .Quadruple) else .ok (.Bond .Quadruple)
  else if c = ':' then
    if bracket then .error .UnexpectedColon else .ok (.Bond .Aromatic)
  else if c = '/' then
    if bracket then .error (.BondInBracket .Up) else .ok (.Bond .Up)
  else if c = '\\' then
    if bracket then .error (.BondInBracket .Down) else .ok (.Bond .Down)
  else .error (.UnexpectedCharacter c)

/-- Bracket-content sub-parser of `TokenIter::parse_token` (the body of the
`'['` arm after the isotope fold, factored out so both isotope outcomes share
it): element (mandatory), chirality, unspecified-symbol check, hydrogens,
charge, class, then the closing `]`.  `in_bracket` is `true` throughout; it is
reset to `false` only when the closing bracket is consumed, so every error
leaves it set. -/
def parse_bracket_body (builder0 : BracketAtomBuilder) (s1 : List Char) :
    Except SmilesError Token × List Char × Bool :=
  match try_element true s1 with
  | (.error e, s2) => (.error e, s2, true)
  | (.ok (atom, aromatic), s2) =>
    let builder1 := (builder0.with_symbol atom).with_aromatic aromatic
    match try_chirality s2 with
    | (.error e, s3) => (.error e, s3, true)
    | (.ok chi, s3) =>
      let builder2 := match chi with
        | some chiral => builder1.with_chiral chiral
        | none => builder1
      if builder2.symbol = AtomSymbol.Unspecified then
        (.error .MissingBracketElement, s3, true)
      else
        match hydrogen_count s3 with
        | (.error e, s4) => (.error e, s4, true)
        | (.ok h, s4) =>
          let builder3 := builder2.with_hydrogens h
          match try_charge s4 with
          | (.error e, s5) => (.error e, s5, true)
          | (.ok charge, s5) =>
            let builder4 := builder3.with_charge charge
            match try_class_num s5 with
            | (.error e, s6) => (.error e, s6, true)
            | (.ok cl, s6) =>
              let builder5 := builder4.with_class_num cl
              let bracket_atom := builder5.build
              match s6 with
              | ']' :: s7 => (.ok (.BracketedAtom bracket_atom), s7, false)
              | _ => (.error .UnclosedBracket, s6, true)

/-- Source `TokenIter::parse_token`: dispatch on the already-consumed current
character; `s` is the remaining stream and `b` the `in_bracket` flag.  Returns
the token or error together with the new stream and flag.  In the bare-digit
ring arm the infallible `to_digit`/`u8::try_from` steps are folded into
`c.toNat - 48`. -/
def parse_token (current_char : Char) (s : List Char) (b : Bool) :
    Except SmilesError Token × List Char × Bool :=
  if current_char = '.' then
    if b then (.error .NonBondInBracket, s, b) else (.ok .NonBond, s, b)
  else if current_char = '[' then
    if b then (.error .UnexpectedLeftBracket, s, b)
    else
      match try_fold_number 65535 s with
      | (some (.error e), s1) => (.error e, s1, true)
      | (some (.ok iso), s1) => parse_bracket_body (BracketAtom.builder.with_isotope iso) s1
      | (none, s1) => parse_bracket_body BracketAtom.builder s1
  else if current_char.isAlpha || current_char = '*' then
    match try_element_from_first b current_char s with
    | (.error e, s1) => (.error e, s1, b)
    | (.ok (symbol, aromatic), s1) =>
      if !valid_unbracketed symbol then (.error (.InvalidUnbracketedAtom symbol), s1, b)
      else if b then (.error .UnexpectedBracketedState, s1, b)
      else (.ok (.UnbracketedAtom ⟨symbol, aromatic⟩), s1, b)
  else if current_char.isDigit || current_char = '%' then
    if current_char = '%' then
      if b then (.error .UnexpectedPercent, s, b)
      else
        match try_fold_number 255 s with
        | (some (.ok num), s1) =>
          match RingNum.try_new num with
          | .ok ring_num =>
            if ring_num.get < 10 then (.error .InvalidRingNumber, s1, b)
            else (.ok (.RingClosure ring_num), s1, b)
          | .error e => (.error e, s1, b)
        | (some (.error e), s1) => (.error e, s1, b)
        | (none, s1) => (.error .InvalidRingNumber, s1, b)
    else
      match RingNum.try_new (current_char.toNat - 48) with
      | .ok ring_num => (.ok (.RingClosure ring_num), s, b)
      | .error e => (.error e, s, b)
  else if current_char = '-' || current_char = '=' || current_char = '#' ||
      current_char = '$' || current_char = ':' || current_char = '/' ||
      current_char = '\\' then
    (try_bond current_char b, s, b)
  else if current_char = '(' then
    if b then (.error .UnexpectedBracketedState, s, b) else (.ok .LeftParentheses, s, b)
  else if current_char = ')' then
    if b then (.error .UnexpectedBracketedState, s, b) else (.ok .RightParentheses, s, b)
  else (.error (.UnexpectedCharacter current_char), s, b)

/-- UTF-8 byte length of a character list, matching `str::len` on the
corresponding Rust string. -/
def utf8_len : List Char → Nat
  | [] => 0
  | c :: r => c.utf8Size + utf8_len r

/-- Source `impl Iterator for TokenIter` `next`, iterated to exhaustion (the
`collect` of the callers).  `len` is the fixed total byte length; the byte
offset of the next unconsumed character — the source's `current_end`, obtained
there by peeking `char_indices` — is `len - utf8_len remaining`, which also
yields `len` at end of input.  `fuel` bounds the iteration; every item
consumes at least one character, so `s.length` fuel (supplied by `tokenize`)
never runs out. -/
def tokenize_from (fuel : Nat) (len : Nat) (s : List Char) (b : Bool) :
    List (Except SmilesErrorWithSpan TokenWithSpan) :=
  match fuel with
  | 0 => []
  | fuel + 1 =>
    match s with
    | [] => []
    | current_char :: rest =>
      let start := len - utf8_len (current_char :: rest)
      match parse_token current_char rest b with
      | (.ok token, rest1, b1) =>
        .ok ⟨token, start, len - utf8_len rest1⟩ :: tokenize_from fuel len rest1 b1
      | (.error e, rest1, b1) =>
        let stop0 := len - utf8_len rest1
        let stop := if stop0 ≤ start then min (start + current_char.utf8Size) len else stop0
        .error ⟨e, start, stop⟩ :: tokenize_from fuel len rest1 b1

/-- Tokenize a whole input: `TokenIter::from(s).collect()`. -/
def tokenize (s : List Char) : List (Except SmilesErrorWithSpan TokenWithSpan) :=
  tokenize_from s.length (utf8_len s) s false

/-- Byte slicing `&s[start..stop]` on the character list, for re-tokenizing
the substring delimited by a token's span. -/
def byte_slice : List Char → Nat → Nat → List Char
  | [], _, _ => []
  | c :: r, start, stop =>
    if start = 0 then
      if stop = 0 then [] else c :: byte_slice r 0 (stop - c.utf8Size)
    else byte_slice r (start - c.utf8Size) (stop - c.utf8Size)

/-- Whether a token is an atom token (bracketed or unbracketed). -/
def is_atom_token : Token → Bool
  | .BracketedAtom _ => true
  | .UnbracketedAtom _ => true
  | _ => false

/-- Source `atom/mod.rs`: the `Atom` sum type. -/
inductive Atom where
  | Unbracketed (a : UnbracketedAtom)
  | Bracketed (a : BracketAtom)
  deriving DecidableEq, Repr

/-- Source `impl From BracketAtom for Atom`. -/
def Atom.from_bracket (a : BracketAtom) : Atom := .Bracketed a

/-- Source `atom/atom_node.rs`: a graph node. -/
structure AtomNode where
  id : Nat
  atom : Atom
  deriving DecidableEq, Repr

/-- Source `bond/bond_edge.rs`: a graph edge. -/
structure BondEdge where
  node_a : Nat
  node_b : Nat
  bond : Bond
  deriving DecidableEq, Repr

/-- Source `smiles/mod.rs`: the molecular graph. -/
structure Smiles where
  atom_nodes : List AtomNode
  bond_edges : List BondEdge
  deriving DecidableEq, Repr

/-- Source `Smiles::new`. -/
def Smiles.new : Smiles := ⟨[], []⟩

/-- Source `Smiles::push_node`. -/
def Smiles.push_node (s : Smiles) (node : AtomNode) : Smiles :=
  { s with atom_nodes := s.atom_nodes ++ [node] }

/-- Source `Smiles::push_edge`. -/
def Smiles.push_edge (s : Smiles) (node_a node_b : Nat) (bond : Bond) : Smiles :=
  { s with bond_edges := s.bond_edges ++ [BondEdge.mk node_a node_b bond] }

/-- Outcome of the second-pass token parser.  The source's `todo!()` arms
panic at run time; they are modelled by the dedicated `incomplete` outcome. -/
inductive ParseOutcome where
  | ok (s : Smiles)
  | err (e : SmilesErrorWithSpan)
  | incomplete
  deriving DecidableEq, Repr

/-- Source `smiles_parser.rs` `try_non_bond`: a dot must be flanked by atom
tokens on both sides, judged on the raw token kind of the immediate
neighbours; otherwise fail with `InvalidNonBondToken` spanning the dot.  (The
`InvalidNonBondToken` variant is referenced by the source but its declaration
is not in the `errors.rs` snapshot; it is modelled as one more payload-free
variant.) -/
def try_non_bond (prev_token next_token : Option TokenWithSpan)
    (dot_token : TokenWithSpan) : Except SmilesErrorWithSpan Unit :=
  let prev_is_atom := prev_token.any fun t =>
    match t.token with
    | .BracketedAtom _ => true
    | .UnbracketedAtom _ => true
    | _ => false
  let next_is_atom := next_token.any fun t =>
    match t.token with
    | .BracketedAtom _ => true
    | .UnbracketedAtom _ => true
    | _ => false
  if !prev_is_atom || !next_is_atom then
    .error ⟨.InvalidNonBondToken, dot_token.start, dot_token.stop⟩
  else .ok ()

/-- Source `SmilesParser::parse` loop body, with the cursor made explicit:
`position` is the read cursor, `id_count` the counter the `BracketedAtom`
arm increments (without ever pushing a node), `smiles` the graph under
construction (never modified by any arm).  All arms other than `NonBond`
and `BracketedAtom` are `todo!()` in the source.  `fuel` bounds the loop;
`tokens.length` (supplied by `smiles_parse`) is always enough because the
position strictly increases. -/
def smiles_parse_aux (fuel : Nat) (tokens : List TokenWithSpan)
    (position : Nat) (id_count : Nat) (smiles : Smiles) : ParseOutcome :=
  match fuel with
  | 0 => .ok smiles
  | fuel + 1 =>
    match tokens[position]? with
    | none => .ok smiles
    | some token_with_span =>
      match token_with_span.token with
      | .NonBond =>
        let prev := if position = 0 then none else tokens[position - 1]?
        let next := tokens[position + 1]?
        match try_non_bond prev next token_with_span with
        | .error e => .err e
        | .ok _ => smiles_parse_aux fuel tokens (position + 1) id_count smiles
      | .BracketedAtom a =>
        let _atom := Atom.from_bracket a
        smiles_parse_aux fuel tokens (position + 1) (id_count + 1) smiles
      | .UnbracketedAtom _ => .incomplete
      | .Bond _ => .incomplete
      | .LeftParentheses => .incomplete
      | .RightParentheses => .incomplete
      | .RingClosure _ => .incomplete

/-- Source `SmilesParser::parse`: run the loop from position 0 on a fresh
graph. -/
def smiles_parse (tokens : List TokenWithSpan) : ParseOutcome :=
  smiles_parse_aux tokens.length tokens 0 0 Smiles.new

/-- Claim C5: for every signed integer `c` in the `i8` domain,
`Charge::try_new(c)` succeeds with `get()` returning `c` exactly when
`-15 ≤ c ≤ 15`, fails with the charge-underflow error carrying `c` when
`c < -15`, and fails with the charge-overflow error carrying `c` when
`c > 15`. -/
theorem C5_charge_try_new_bounds (c : Int) (hlo : -128 ≤ c) (hhi : c ≤ 127) :
    (-15 ≤ c ∧ c ≤ 15 → ∃ ch, Charge.try_new c = .ok ch ∧ ch.get = c) ∧
    (c < -15 → Charge.try_new c = .error (.ChargeUnderflow c)) ∧
    (15 < c → Charge.try_new c = .error (.ChargeOverflow c)) := by
  refine ⟨fun h => ⟨⟨c⟩, ?_, rfl⟩, fun h => ?_, fun h => ?_⟩
  · unfold Charge.try_new
    rw [if_pos (by omega)]
  · unfold Charge.try_new
    rw [if_neg (by omega), if_pos (by omega)]
  · unfold Charge.try_new
    rw [if_neg (by omega), if_neg (by omega)]

/-- Witness for C5 at the concrete inputs 7, -16 and 16. -/
theorem C5_charge_try_new_bounds_witness :
    (∃ ch, Charge.try_new 7 = .ok ch ∧ ch.get = 7) ∧
    Charge.try_new (-16) = .error (.ChargeUnderflow (-16)) ∧
    Charge.try_new 16 = .error (.ChargeOverflow 16) :=
  ⟨(C5_charge_try_new_bounds 7 (by decide) (by decide)).1 (by decide),
   (C5_charge_try_new_bounds (-16) (by decide) (by decide)).2.1 (by decide),
   (C5_charge_try_new_bounds 16 (by decide) (by decide)).2.2 (by decide)⟩

/-- Claim C10: the builder starts from the documented defaults (unspecified
symbol, no isotope, non-aromatic, unspecified hydrogens, charge 0, class 0,
no chirality); each setter updates only its own field and leaves the other
six accumulated fields unchanged (hence the order setters are applied in is
irrelevant); and `build()` returns a `BracketAtom` whose seven fields are
exactly the accumulated values — illustrated at the end by two full chains of
all seven setters in opposite orders producing the same atom. -/
theorem C10_builder_frame :
    (BracketAtom.builder.bracket_atom =
      ⟨.Unspecified, none, false, .Unspecified, ⟨0⟩, 0, none⟩) ∧
    (∀ (b : BracketAtomBuilder) (iso : Nat),
      (b.with_isotope iso).bracket_atom.symbol = b.bracket_atom.symbol ∧
      (b.with_isotope iso).bracket_atom.isotope_mass_number = some iso ∧
      (b.with_isotope iso).bracket_atom.aromatic = b.bracket_atom.aromatic ∧
      (b.with_isotope iso).bracket_atom.hydrogens = b.bracket_atom.hydrogens ∧
      (b.with_isotope iso).bracket_atom.charge = b.bracket_atom.charge ∧
      (b.with_isotope iso).bracket_atom.class_num = b.bracket_atom.class_num ∧
      (b.with_isotope iso).bracket_atom.chirality = b.bracket_atom.chirality) ∧
    (∀ (b : BracketAtomBuilder) (sym : AtomSymbol),
      (b.with_symbol sym).bracket_atom.symbol = sym ∧
      (b.with_symbol sym).bracket_atom.isotope_mass_number =
        b.bracket_atom.isotope_mass_number ∧
      (b.with_symbol sym).bracket_atom.aromatic = b.bracket_atom.aromatic ∧
      (b.with_symbol sym).bracket_atom.hydrogens = b.bracket_atom.hydrogens ∧
      (b.with_symbol sym).bracket_atom.charge = b.bracket_atom.charge ∧
      (b.with_symbol sym).bracket_atom.class_num = b.bracket_atom.class_num ∧
      (b.with_symbol sym).bracket_atom.chirality = b.bracket_atom.chirality) ∧
    (∀ (b : BracketAtomBuilder) (ar : Bool),
      (b.with_aromatic ar).bracket_atom.symbol = b.bracket_atom.symbol ∧
      (b.with_aromatic ar).bracket_atom.isotope_mass_number =
        b.bracket_atom.isotope_mass_number ∧
      (b.with_aromatic ar).bracket_atom.aromatic = ar ∧
      (b.with_aromatic ar).bracket_atom.hydrogens = b.bracket_atom.hydrogens ∧
      (b.with_aromatic ar).bracket_atom.charge = b.bracket_atom.charge ∧
      (b.with_aromatic ar).bracket_atom.class_num = b.bracket_atom.class_num ∧
      (b.with_aromatic ar).bracket_atom.chirality = b.bracket_atom.chirality) ∧
    (∀ (b : BracketAtomBuilder) (h : HydrogenCount),
      (b.with_hydrogens h).bracket_atom.symbol = b.bracket_atom.symbol ∧
      (b.with_hydrogens h).bracket_atom.isotope_mass_number =
        b.bracket_atom.isotope_mass_number ∧
      (b.with_hydrogens h).bracket_atom.aromatic = b.bracket_atom.aromatic ∧
      (b.with_hydrogens h).bracket_atom.hydrogens = h ∧
      (b.with_hydrogens h).bracket_atom.charge = b.bracket_atom.charge ∧
      (b.with_hydrogens h).bracket_atom.class_num = b.bracket_atom.class_num ∧
      (b.with_hydrogens h).bracket_atom.chirality = b.bracket_atom.chirality) ∧
    (∀ (b : BracketAtomBuilder) (ch : Charge),
      (b.with_charge ch).bracket_atom.symbol = b.bracket_atom.symbol ∧
      (b.with_charge ch).bracket_atom.isotope_mass_number =
        b.bracket_atom.isotope_mass_number ∧
      (b.with_charge ch).bracket_atom.aromatic = b.bracket_atom.aromatic ∧
      (b.with_charge ch).bracket_atom.hydrogens = b.bracket_atom.hydrogens ∧
      (b.with_charge ch).bracket_atom.charge = ch ∧
      (b.with_charge ch).bracket_atom.class_num = b.bracket_atom.class_num ∧
      (b.with_charge ch).bracket_atom.chirality = b.bracket_atom.chirality) ∧
    (∀ (b : BracketAtomBuilder) (cl : Nat),
      (b.with_class_num cl).bracket_atom.symbol = b.bracket_atom.symbol ∧
      (b.with_class_num cl).bracket_atom.isotope_mass_number =
        b.bracket_atom.isotope_mass_number ∧
      (b.with_class_num cl).bracket_atom.aromatic = b.bracket_atom.aromatic ∧
      (b.with_class_num cl).bracket_atom.hydrogens = b.bracket_atom.hydrogens ∧
      (b.with_class_num cl).bracket_atom.charge = b.bracket_atom.charge ∧
      (b.with_class_num cl).bracket_atom.class_num = cl ∧
      (b.with_class_num cl).bracket_atom.chirality = b.bracket_atom.chirality) ∧
    (∀ (b : BracketAtomBuilder) (chir : Chirality),
      (b.with_chiral chir).bracket_atom.symbol = b.bracket_atom.symbol ∧
      (b.with_chiral chir).bracket_atom.isotope_mass_number =
        b.bracket_atom.isotope_mass_number ∧
      (b.with_chiral chir).bracket_atom.aromatic = b.bracket_atom.aromatic ∧
      (b.with_chiral chir).bracket_atom.hydrogens = b.bracket_atom.hydrogens ∧
      (b.with_chiral chir).bracket_atom.charge = b.bracket_atom.charge ∧
      (b.with_chiral chir).bracket_atom.class_num = b.bracket_atom.class_num ∧
      (b.with_chiral chir).bracket_atom.chirality = some chir) ∧
    (∀ b : BracketAtomBuilder, b.build = b.bracket_atom) ∧
    (∀ (sym : AtomSymbol) (iso : Nat) (ar : Bool) (h : HydrogenCount)
        (ch : Charge) (cl : Nat) (chir : Chirality),
      (((((((BracketAtom.builder.with_symbol sym).with_isotope iso).with_aromatic
        ar).with_hydrogens h).with_charge ch).with_class_num cl).with_chiral
        chir).build = ⟨sym, some iso, ar, h, ch, cl, some chir⟩ ∧
      (((((((BracketAtom.builder.with_chiral chir).with_class_num cl).with_charge
        ch).with_hydrogens h).with_aromatic ar).with_isotope iso).with_symbol
        sym).build = ⟨sym, some iso, ar, h, ch, cl, some chir⟩) := by
  refine ⟨rfl, ?_, ?_, ?_, ?_, ?_, ?_, ?_, ?_, ?_⟩ <;> intros <;>
    first
      | exact ⟨rfl, rfl, rfl, rfl, rfl, rfl, rfl⟩
      | exact ⟨rfl, rfl⟩
      | exact rfl

/-- Claim C4: aromaticity validation accepts exactly the six elements B, C,
N, O, S, P outside brackets and exactly the eight elements B, C, N, O, P, S,
Se, As inside brackets, failing with an invalid-aromatic-element error
carrying the element otherwise; consequently the lowercase-led resolutions
`se` and `as` tokenize successfully (as aromatic bracketed atoms) only inside
an open bracket and fail with that error outside any bracket. -/
theorem C4_aromatic_whitelist :
    (∀ e, aromatic_from_element true e =
      (if e ∈ [Element.B, .C, .N, .O, .P, .S, .Se, .As] then .ok true
       else .error (.InvalidAromaticElement e))) ∧
    (∀ e, aromatic_from_element false e =
      (if e ∈ [Element.B, .C, .N, .O, .S, .P] then .ok true
       else .error (.InvalidAromaticElement e))) ∧
    tokenize "se".toList = [.error ⟨.InvalidAromaticElement .Se, 0, 2⟩] ∧
    tokenize "as".toList = [.error ⟨.InvalidAromaticElement .As, 0, 2⟩] ∧
    tokenize "[se]".toList =
      [.ok ⟨.BracketedAtom
        ⟨.Element .Se, none, true, .Unspecified, ⟨0⟩, 0, none⟩, 0, 4⟩] ∧
    tokenize "[as]".toList =
      [.ok ⟨.BracketedAtom
        ⟨.Element .As, none, true, .Unspecified, ⟨0⟩, 0, none⟩, 0, 4⟩] := by
  refine ⟨fun e => ?_, fun e => ?_, by decide, by decide, by decide, by decide⟩ <;>
    cases e <;> rfl

/-- Claim C1 (divergence of the code from the spec's chirality table): after
the leading `@`, the source's `'T'` arm re-peeks the unconsumed `'T'` and
therefore rejects every `@TH`/`@TB` form as invalid chirality, its
`'A' | 'S'` arm looks for a following `'P'` so that `@AL1` is rejected while
`@AP1` is accepted as square-planar SP 1, and a digit directly after `@`
falls into the catch-all invalid-chirality arm instead of yielding plain At.
The `@@`, `@SP n`, `@OH n` and `@` + one of H, -, +, :, ] forms do behave as
the table says.  The last conjunct evaluates a whole failing input. -/
theorem C1_chirality_divergence :
    try_chirality "@TH1]".toList = (.error .InvalidChirality, "TH1]".toList) ∧
    try_chirality "@TB1]".toList = (.error .InvalidChirality, "TB1]".toList) ∧
    try_chirality "@AL1]".toList = (.error .InvalidChirality, "L1]".toList) ∧
    try_chirality "@AP1]".toList = (.ok (some (.SP 1)), "]".toList) ∧
    try_chirality "@2]".toList = (.error .InvalidChirality, "2]".toList) ∧
    try_chirality "@@]".toList = (.ok (some .AtAt), "]".toList) ∧
    try_chirality "@SP3]".toList = (.ok (some (.SP 3)), "]".toList) ∧
    try_chirality "@OH30]".toList = (.ok (some (.OH 30)), "]".toList) ∧
    try_chirality "@H]".toList = (.ok (some .At), "H]".toList) ∧
    tokenize "[C@TH1]".toList =
      [.error ⟨.InvalidChirality, 0, 3⟩,
       .error ⟨.InvalidElementName 'T', 3, 4⟩,
       .error ⟨.InvalidUnbracketedAtom (.Element .H), 4, 5⟩,
       .ok ⟨.RingClosure ⟨1⟩, 5, 6⟩,
       .error ⟨.UnexpectedCharacter ']', 6, 7⟩] :=
  ⟨by decide, by decide, by decide, by decide, by decide, by decide, by decide,
   by decide, by decide, by decide⟩

/-- Claim C2 (divergence of the code from the spec's graph-building loop):
`SmilesParser::parse` never appends an `AtomNode` and never inserts a bond
edge — its `BracketedAtom` arm only increments a local counter, so two
consecutive bracketed atom tokens produce an empty graph with no implicit
Single edge, and every other atom-bearing arm is an unimplemented `todo!()`
(modelled as `.incomplete`), so an unbracketed atom token panics instead of
creating the node with id 0. -/
theorem C2_parse_ignores_atoms :
    smiles_parse [⟨.BracketedAtom BracketAtom.builder.build, 0, 5⟩] =
      .ok ⟨[], []⟩ ∧
    smiles_parse [⟨.BracketedAtom BracketAtom.builder.build, 0, 5⟩,
      ⟨.BracketedAtom BracketAtom.builder.build, 5, 10⟩] = .ok ⟨[], []⟩ ∧
    smiles_parse [⟨.UnbracketedAtom ⟨.Element .C, false⟩, 0, 1⟩] =
      .incomplete := by
  decide

/-- Claim C8: a NonBond dot is accepted by `try_non_bond` exactly when the
tokens immediately before and after it are both atom tokens (bracketed or
unbracketed), judged on the raw token kind; otherwise it fails with the
invalid-non-bond error spanning the dot token.  The closed conjuncts run the
parse loop itself, which feeds `try_non_bond` the one-token lookbehind and
lookahead: dot between two bracketed atoms parses, while a dot with a
missing neighbour or a non-atom neighbour fails with the dot's span. -/
theorem C8_non_bond_flanking :
    (∀ (prev next : Option TokenWithSpan) (dot : TokenWithSpan),
      try_non_bond prev next dot =
        if (prev.any fun t => is_atom_token t.token) &&
            (next.any fun t => is_atom_token t.token) then .ok ()
        else .error ⟨.InvalidNonBondToken, dot.start, dot.stop⟩) ∧
    smiles_parse [⟨.BracketedAtom BracketAtom.builder.build, 0, 5⟩,
      ⟨.NonBond, 5, 6⟩, ⟨.BracketedAtom BracketAtom.builder.build, 6, 11⟩] =
      .ok ⟨[], []⟩ ∧
    smiles_parse [⟨.NonBond, 0, 1⟩,
      ⟨.BracketedAtom BracketAtom.builder.build, 1, 6⟩] =
      .err ⟨.InvalidNonBondToken, 0, 1⟩ ∧
    smiles_parse [⟨.BracketedAtom BracketAtom.builder.build, 0, 5⟩,
      ⟨.NonBond, 5, 6⟩] = .err ⟨.InvalidNonBondToken, 5, 6⟩ ∧
    smiles_parse [⟨.BracketedAtom BracketAtom.builder.build, 0, 5⟩,
      ⟨.NonBond, 5, 6⟩, ⟨.Bond .Single, 6, 7⟩] =
      .err ⟨.InvalidNonBondToken, 5, 6⟩ := by
  refine ⟨fun prev next dot => ?_, by decide, by decide, by decide, by decide⟩
  rcases prev with _ | ⟨⟨pt, ps, pe⟩⟩ <;> rcases next with _ | ⟨⟨nt, ns, ne⟩⟩ <;>
    first
      | rfl
      | (cases pt <;> cases nt <;> rfl)
      | (cases pt <;> rfl)

/-- Claim C3 (counterexample): tokenizing `%123` outside brackets does not
read exactly the two digits `12` and emit a ring-closure token over byte span
0 to 3 — the digit fold is greedy over all three digits and the tokenizer
fails with ring-number overflow carrying 123. -/
theorem C3_percent_counterexample :
    tokenize "%123".toList = [.error ⟨.RingNumberOverflow 123, 0, 4⟩] ∧
    Except.ok ⟨.RingClosure ⟨12⟩, 0, 3⟩ ∉ tokenize "%123".toList :=
  ⟨by decide, by decide⟩

/-- The byte length of a concatenation is the sum of byte lengths. -/
theorem utf8_len_append (a b : List Char) :
    utf8_len (a ++ b) = utf8_len a + utf8_len b := by
  induction a with
  | nil => simp [utf8_len]
  | cons c r ih => simp [utf8_len, ih]; omega

/-- A suffix has no greater byte length. -/
theorem utf8_len_suffix_le {s' s : List Char} (h : s' <:+ s) :
    utf8_len s' ≤ utf8_len s := by
  obtain ⟨p, rfl⟩ := h
  rw [utf8_len_append]
  omega

/-- The digit-fold loop only consumes characters: its resulting stream is a
suffix of its input stream. -/
theorem try_fold_number_go_rest_suffix (maxB : Nat) :
    ∀ (s : List Char) (a : Nat) (seen : Bool),
      (try_fold_number_go maxB s a seen).2 <:+ s := by
  intro s
  induction s with
  | nil => intro a seen; simp [try_fold_number_go]
  | cons c r ih =>
    intro a seen
    simp only [try_fold_number_go]
    split
    · split
      · exact (ih _ _).trans (List.suffix_cons c r)
      · exact List.suffix_cons c r
    · exact List.suffix_refl _

/-- `try_fold_number` only consumes characters. -/
theorem try_fold_number_rest_suffix (maxB : Nat) (s : List Char) :
    (try_fold_number maxB s).2 <:+ s :=
  try_fold_number_go_rest_suffix maxB s 0 false

/-- `try_element_from_first` only consumes characters. -/
theorem try_element_from_first_rest_suffix (b : Bool) (c1 : Char) (s : List Char) :
    (try_element_from_first b c1 s).2 <:+ s := by
  unfold try_element_from_first
  split
  · exact List.suffix_refl _
  · split
    · exact List.suffix_refl _
    · split
      · split
        · split
          · split <;> exact List.suffix_cons _ _
          · exact List.suffix_refl _
        · split
          · split
            · exact List.suffix_cons _ _
            · exact List.suffix_refl _
          · exact List.suffix_refl _
      · exact List.suffix_refl _

/-- `try_element` only consumes characters. -/
theorem try_element_rest_suffix (b : Bool) (s : List Char) :
    (try_element b s).2 <:+ s := by
  unfold try_element
  split
  · exact List.suffix_refl _
  · exact (try_element_from_first_rest_suffix _ _ _).trans (List.suffix_cons _ _)

/-- `chirality_fold` only consumes characters. -/
theorem chirality_fold_rest_suffix (s : List Char)
    (mk : Nat → Except SmilesError Chirality) :
    (chirality_fold s mk).2 <:+ s := by
  unfold chirality_fold
  have h := try_fold_number_rest_suffix 255 s
  split <;> rename_i heq <;> rw [heq] at h <;> simp at h ⊢
  · exact h
  · exact h
  · split <;> exact h

/-- The chirality tail helpers only consume characters. -/
theorem chirality_tail_t_rest_suffix (s1 : List Char) :
    (chirality_tail_t s1).2 <:+ s1 := by
  unfold chirality_tail_t
  split
  · exact (chirality_fold_rest_suffix _ _).trans (List.suffix_cons _ _)
  · exact (chirality_fold_rest_suffix _ _).trans (List.suffix_cons _ _)
  · exact List.suffix_refl _
  · exact List.suffix_refl _

/-- See `chirality_tail_t_rest_suffix`. -/
theorem chirality_tail_sp_rest_suffix (s2 : List Char) :
    (chirality_tail_sp s2).2 <:+ s2 := by
  unfold chirality_tail_sp
  split
  · exact (chirality_fold_rest_suffix _ _).trans (List.suffix_cons _ _)
  · exact List.suffix_refl _
  · exact List.suffix_refl _

/-- See `chirality_tail_t_rest_suffix`. -/
theorem chirality_tail_oh_rest_suffix (s2 : List Char) :
    (chirality_tail_oh s2).2 <:+ s2 := by
  unfold chirality_tail_oh
  split
  · exact (chirality_fold_rest_suffix _ _).trans (List.suffix_cons _ _)
  · exact List.suffix_refl _
  · exact List.suffix_refl _

/-- The post-`@` chirality body only consumes characters. -/
theorem chirality_after_at_rest_suffix (s1 : List Char) :
    (chirality_after_at s1).2 <:+ s1 := by
  unfold chirality_after_at
  split
  · exact List.suffix_refl _
  · split
    · exact List.suffix_cons _ _
    · split
      · exact chirality_tail_t_rest_suffix _
      · split
        · exact (chirality_tail_sp_rest_suffix _).trans (List.suffix_cons _ _)
        · split
          · exact (chirality_tail_oh_rest_suffix _).trans (List.suffix_cons _ _)
          · split
            · exact List.suffix_refl _
            · exact List.suffix_refl _

/-- `try_chirality` only consumes characters. -/
theorem try_chirality_rest_suffix (s : List Char) :
    (try_chirality s).2 <:+ s := by
  unfold try_chirality
  split
  · exact (chirality_after_at_rest_suffix _).trans (List.suffix_cons _ _)
  · exact List.suffix_refl _

/-- `hydrogen_count` only consumes characters. -/
theorem hydrogen_count_rest_suffix (s : List Char) :
    (hydrogen_count s).2 <:+ s := by
  unfold hydrogen_count
  split
  case _ s1 =>
    have h := try_fold_number_rest_suffix 255 s1
    split <;> rename_i heq <;> rw [heq] at h <;> simp at h ⊢ <;>
      exact h.trans (List.suffix_cons _ _)
  · exact List.suffix_refl _

/-- The post-sign charge bodies only consume characters. -/
theorem charge_after_minus_rest_suffix (s1 : List Char) :
    (charge_after_minus s1).2 <:+ s1 := by
  unfold charge_after_minus
  split
  · exact List.suffix_cons _ _
  · have h := try_fold_number_rest_suffix 127 s1
    split <;> rename_i heq <;> rw [heq] at h <;> simp at h ⊢ <;> exact h

/-- See `charge_after_minus_rest_suffix`. -/
theorem charge_after_plus_rest_suffix (s1 : List Char) :
    (charge_after_plus s1).2 <:+ s1 := by
  unfold charge_after_plus
  split
  · exact List.suffix_cons _ _
  · have h := try_fold_number_rest_suffix 127 s1
    split <;> rename_i heq <;> rw [heq] at h <;> simp at h ⊢ <;> exact h

/-- `try_charge` only consumes characters. -/
theorem try_charge_rest_suffix (s : List Char) :
    (try_charge s).2 <:+ s := by
  unfold try_charge
  split
  · exact (charge_after_minus_rest_suffix _).trans (List.suffix_cons _ _)
  · exact (charge_after_plus_rest_suffix _).trans (List.suffix_cons _ _)
  · exact List.suffix_refl _

/-- `try_class` only consumes characters. -/
theorem try_class_num_rest_suffix (s : List Char) :
    (try_class_num s).2 <:+ s := by
  unfold try_class_num
  split
  case _ s1 =>
    have h := try_fold_number_rest_suffix 65535 s1
    split <;> rename_i heq <;> rw [heq] at h <;> simp at h ⊢ <;>
      exact h.trans (List.suffix_cons _ _)
  · exact List.suffix_refl _

/-- The bracket-content sub-parser only consumes characters. -/
theorem parse_bracket_body_rest_suffix (b0 : BracketAtomBuilder) (s1 : List Char) :
    (parse_bracket_body b0 s1).2.1 <:+ s1 := by
  unfold parse_bracket_body
  have h1 := try_element_rest_suffix true s1
  split <;> rename_i heq1 <;> rw [heq1] at h1 <;> simp at h1 ⊢
  · exact h1
  case _ s2 =>
    have h2 := try_chirality_rest_suffix s2
    split <;> rename_i heq2 <;> rw [heq2] at h2 <;> simp at h2 ⊢
    · exact h2.trans h1
    case _ s3 =>
      split
      · exact h2.trans h1
      · have h3 := hydrogen_count_rest_suffix s3
        split <;> rename_i heq3 <;> rw [heq3] at h3 <;> simp at h3 ⊢
        · exact (h3.trans h2).trans h1
        case _ s4 =>
          have h4 := try_charge_rest_suffix s4
          split <;> rename_i heq4 <;> rw [heq4] at h4 <;> simp at h4 ⊢
          · exact ((h4.trans h3).trans h2).trans h1
          case _ s5 =>
            have h5 := try_class_num_rest_suffix s5
            split <;> rename_i heq5 <;> rw [heq5] at h5 <;> simp at h5 ⊢
            · exact (((h5.trans h4).trans h3).trans h2).trans h1
            case _ s6 =>
              split
              case _ s7 =>
                exact ((((List.suffix_cons _ _).trans h5).trans h4).trans
                  h3).trans ((h2).trans h1)
              · exact (((h5.trans h4).trans h3).trans h2).trans h1

/-- `parse_token` only consumes characters. -/
theorem parse_token_rest_suffix (c : Char) (s : List Char) (b : Bool) :
    (parse_token c s b).2.1 <:+ s := by
  unfold parse_token
  split
  · split <;> exact List.suffix_refl _
  · split
    · split
      · exact List.suffix_refl _
      · rcases h : try_fold_number 65535 s with ⟨res, s1⟩
        have hs1 : s1 <:+ s := by
          have := try_fold_number_rest_suffix 65535 s; rwa [h] at this
        cases res with
        | none => exact (parse_bracket_body_rest_suffix _ _).trans hs1
        | some exc =>
          cases exc with
          | error e => exact hs1
          | ok iso => exact (parse_bracket_body_rest_suffix _ _).trans hs1
    · split
      · rcases h : try_element_from_first b c s with ⟨res, s1⟩
        have hs1 : s1 <:+ s := by
          have := try_element_from_first_rest_suffix b c s; rwa [h] at this
        cases res with
        | error e => dsimp only; exact hs1
        | ok pair =>
          obtain ⟨symbol, aromatic⟩ := pair
          dsimp only
          split
          · exact hs1
          · split
            · exact hs1
            · exact hs1
      · split
        · split
          · split
            · exact List.suffix_refl _
            · rcases h : try_fold_number 255 s with ⟨res, s1⟩
              have hs1 : s1 <:+ s := by
                have := try_fold_number_rest_suffix 255 s; rwa [h] at this
              cases res with
              | none => exact hs1
              | some exc =>
                cases exc with
                | error e => exact hs1
                | ok num =>
                  cases hrn : RingNum.try_new num with
                  | ok rn =>
                    by_cases hlt : rn.get < 10
                    · simp only [hrn, if_pos hlt]; exact hs1
                    · simp only [hrn, if_neg hlt]; exact hs1
                  | error e => simp only [hrn]; exact hs1
          · cases hrn : RingNum.try_new (c.toNat - 48) with
            | ok rn => simp only [hrn]; exact List.suffix_refl _
            | error e => simp only [hrn]; exact List.suffix_refl _
        · split
          · exact List.suffix_refl _
          · split
            · split <;> exact List.suffix_refl _
            · split
              · split <;> exact List.suffix_refl _
              · exact List.suffix_refl _

/-- A list of half-open spans chains exactly from `a` to `b`: the first span
starts at `a`, every span's end is the next span's start, and the last span's
end is `b` (for the empty list, `a = b`). -/
def spans_chain : Nat → List (Nat × Nat) → Nat → Bool
  | a, [], b => a == b
  | a, (x, y) :: l, b => x == a && spans_chain y l b

/-- Invariant behind claim C6: a fully successful run of the token iterator
started at byte offset `len - utf8_len r` tiles the remaining bytes with the
emitted spans. -/
theorem tokenize_from_chain (fuel : Nat) :
    ∀ (len : Nat) (r : List Char) (b : Bool) (toks : List TokenWithSpan),
      r.length ≤ fuel → utf8_len r ≤ len →
      tokenize_from fuel len r b = toks.map Except.ok →
      spans_chain (len - utf8_len r) (toks.map fun t => (t.start, t.stop)) len
        = true := by
  induction fuel with
  | zero =>
    intro len r b toks hfuel hlen hrun
    have hr : r = [] := List.length_eq_zero.mp (Nat.le_zero.mp hfuel)
    subst hr
    simp only [tokenize_from] at hrun
    have : toks = [] := by
      cases toks with
      | nil => rfl
      | cons t ts => simp at hrun
    subst this
    simp [spans_chain, utf8_len]
  | succ fuel ih =>
    intro len r b toks hfuel hlen hrun
    cases r with
    | nil =>
      simp only [tokenize_from] at hrun
      have : toks = [] := by
        cases toks with
        | nil => rfl
        | cons t ts => simp at hrun
      subst this
      simp [spans_chain, utf8_len]
    | cons c r0 =>
      simp only [tokenize_from] at hrun
      rcases hpt : parse_token c r0 b with ⟨res, r1, b1⟩
      rw [hpt] at hrun
      have hr1 : r1 <:+ r0 := by
        have := parse_token_rest_suffix c r0 b; rwa [hpt] at this
      cases res with
      | error e =>
        cases toks with
        | nil => simp at hrun
        | cons t ts => simp at hrun
      | ok token =>
        cases toks with
        | nil => simp at hrun
        | cons t ts =>
          simp only [List.map_cons, List.cons.injEq] at hrun
          obtain ⟨hhead, htail⟩ := hrun
          obtain rfl : t = ⟨token, len - utf8_len (c :: r0), len - utf8_len r1⟩ :=
            (Except.ok.inj hhead).symm
          have hrec := ih len r1 b1 ts
            (le_trans (hr1.length_le.trans (Nat.le_of_succ_le_succ
              (by simpa using hfuel))) (le_refl _))
            (le_trans (utf8_len_suffix_le hr1)
              (le_trans (by simp [utf8_len]) hlen))
            htail
          simp only [List.map_cons, spans_chain, beq_self_eq_true,
            Bool.true_and]
          exact hrec

/-- Claim C6: for every input on which tokenization succeeds (every emitted
item is `ok`), the emitted half-open byte spans partition the input exactly:
the first token starts at byte 0, each token's end equals the next token's
start, and the last token's end equals the input's byte length.  Each span's
start is by construction the byte offset of its first consumed character and
its end the offset of the next unconsumed character (input length at
end-of-string). -/
theorem C6_spans_partition (s : List Char) (toks : List TokenWithSpan)
    (h : tokenize s = toks.map Except.ok) :
    spans_chain 0 (toks.map fun t => (t.start, t.stop)) (utf8_len s) = true := by
  have := tokenize_from_chain s.length (utf8_len s) s false toks le_rfl le_rfl h
  simpa using this

/-- Witness for C6 on the spec's own example `c1ccccc1`: tokenization
succeeds with eight tokens whose spans tile bytes 0 through 8. -/
theorem C6_spans_partition_witness :
    tokenize "c1ccccc1".toList =
      ([⟨.UnbracketedAtom ⟨.Element .C, true⟩, 0, 1⟩,
        ⟨.RingClosure ⟨1⟩, 1, 2⟩,
        ⟨.UnbracketedAtom ⟨.Element .C, true⟩, 2, 3⟩,
        ⟨.UnbracketedAtom ⟨.Element .C, true⟩, 3, 4⟩,
        ⟨.UnbracketedAtom ⟨.Element .C, true⟩, 4, 5⟩,
        ⟨.UnbracketedAtom ⟨.Element .C, true⟩, 5, 6⟩,
        ⟨.UnbracketedAtom ⟨.Element .C, true⟩, 6, 7⟩,
        ⟨.RingClosure ⟨1⟩, 7, 8⟩] : List TokenWithSpan).map Except.ok ∧
    spans_chain 0
      (([⟨.UnbracketedAtom ⟨.Element .C, true⟩, 0, 1⟩,
         ⟨.RingClosure ⟨1⟩, 1, 2⟩,
         ⟨.UnbracketedAtom ⟨.Element .C, true⟩, 2, 3⟩,
         ⟨.UnbracketedAtom ⟨.Element .C, true⟩, 3, 4⟩,
         ⟨.UnbracketedAtom ⟨.Element .C, true⟩, 4, 5⟩,
         ⟨.UnbracketedAtom ⟨.Element .C, true⟩, 5, 6⟩,
         ⟨.UnbracketedAtom ⟨.Element .C, true⟩, 6, 7⟩,
         ⟨.RingClosure ⟨1⟩, 7, 8⟩] : List TokenWithSpan).map
        fun t => (t.start, t.stop))
      (utf8_len "c1ccccc1".toList) = true :=
  ⟨by decide, C6_spans_partition "c1ccccc1".toList _ (by decide)⟩

/-- Claim C9 (implicit): the token iterator is not fused at errors.  First,
iteration stops only at end of input: the collected item list is empty
exactly when the input is (errors never terminate the run early).  Second,
after any item — ok or error — the run continues precisely from the state the
parse of that item left behind: the remaining characters begin at the first
character the failed token did not consume, and the `in_bracket` flag keeps
whatever value the failed parse left (set, for an error inside an
unterminated bracket).  Third, a whole-input trace: in `[x.C]` the element
error inside the bracket leaves the flag set, so the following `.` fails with
non-bond-in-bracket and the following `C` with unexpected-bracketed-state —
bracket-context restrictions keep applying after the error — and scanning
proceeds to the end of input. -/
theorem C9_iterator_not_fused :
    (∀ s : List Char, tokenize s = [] ↔ s = []) ∧
    (∀ (fuel len : Nat) (c : Char) (r : List Char) (b : Bool),
      tokenize_from (fuel + 1) len (c :: r) b ≠ [] ∧
      (tokenize_from (fuel + 1) len (c :: r) b).tail =
        tokenize_from fuel len (parse_token c r b).2.1 (parse_token c r b).2.2) ∧
    tokenize "[x.C]".toList =
      [.error ⟨.InvalidElementName 'x', 0, 2⟩,
       .error ⟨.NonBondInBracket, 2, 3⟩,
       .error ⟨.UnexpectedBracketedState, 3, 4⟩,
       .error ⟨.UnexpectedCharacter ']', 4, 5⟩] := by
  refine ⟨fun s => ?_, fun fuel len c r b => ?_, by decide⟩
  · constructor
    · intro h
      cases s with
      | nil => rfl
      | cons c r =>
        simp only [tokenize, tokenize_from] at h
        rcases hpt : parse_token c r false with ⟨res, r1, b1⟩
        rw [hpt] at h
        cases res <;> simp at h
    · intro h
      subst h
      rfl
  · rcases hpt : parse_token c r b with ⟨res, r1, b1⟩
    constructor
    · simp only [tokenize_from, hpt]
      cases res <;> simp
    · simp only [tokenize_from, hpt]
      cases res <;> simp

/-- Decimal value of a digit string (statement vocabulary for C3). -/
def fold_digits_val (ds : List Char) : Nat :=
  ds.foldl (fun a c => a * 10 + (c.toNat - 48)) 0

/-- Whether a stream does not begin with an ASCII digit (statement
vocabulary for C3: the greedy fold stops exactly here). -/
def no_leading_digit : List Char → Bool
  | [] => true
  | c :: _ => !c.isDigit

/-- A digit character's decimal value is at most 9. -/
theorem digit_val_le (c : Char) (h : c.isDigit = true) : c.toNat - 48 ≤ 9 := by
  simp only [Char.isDigit, Bool.and_eq_true, decide_eq_true_eq] at h
  obtain ⟨h1, h2⟩ := h
  have : c.toNat ≤ 57 := h2
  omega

/-- The digit fold never decreases below its accumulator. -/
theorem foldl_digits_ge (ds : List Char) : ∀ a : Nat,
    a ≤ ds.foldl (fun x c => x * 10 + (c.toNat - 48)) a := by
  induction ds with
  | nil => intro a; simp
  | cons d ds ih =>
    intro a
    simp only [List.foldl]
    exact le_trans (by omega) (ih (a * 10 + (d.toNat - 48)))

/-- Bound on the digit fold in terms of the number of digits. -/
theorem foldl_digits_lt (ds : List Char) (hds : ∀ c ∈ ds, c.isDigit = true) :
    ∀ a : Nat, ds.foldl (fun x c => x * 10 + (c.toNat - 48)) a
      < (a + 1) * 10 ^ ds.length := by
  induction ds with
  | nil => intro a; simp
  | cons d ds ih =>
    intro a
    simp only [List.foldl, List.length_cons]
    have hd : d.toNat - 48 ≤ 9 := digit_val_le d (hds d (by simp))
    have hrec := ih (fun c hc => hds c (by simp [hc])) (a * 10 + (d.toNat - 48))
    calc List.foldl _ (a * 10 + (d.toNat - 48)) ds
        < (a * 10 + (d.toNat - 48) + 1) * 10 ^ ds.length := hrec
      _ ≤ ((a + 1) * 10) * 10 ^ ds.length := by
          have : a * 10 + (d.toNat - 48) + 1 ≤ (a + 1) * 10 := by omega
          exact Nat.mul_le_mul_right _ this
      _ = (a + 1) * 10 ^ (ds.length + 1) := by ring

/-- Characterization of the greedy digit fold on a digit run followed by a
non-digit boundary, provided the `u32` accumulator never overflows. -/
theorem try_fold_number_go_digits (ds : List Char)
    (hds : ∀ c ∈ ds, c.isDigit = true) :
    ∀ (r : List Char) (maxB a : Nat) (seen : Bool),
      no_leading_digit r = true →
      ds.foldl (fun x c => x * 10 + (c.toNat - 48)) a ≤ u32_max →
      try_fold_number_go maxB (ds ++ r) a seen =
        (if seen || !ds.isEmpty then
          some (if ds.foldl (fun x c => x * 10 + (c.toNat - 48)) a ≤ maxB then
            .ok (ds.foldl (fun x c => x * 10 + (c.toNat - 48)) a)
          else .error .IntegerOverflow)
        else none, r) := by
  induction ds with
  | nil =>
    intro r maxB a seen hr hbound
    cases r with
    | nil => simp [try_fold_number_go]
    | cons c rest =>
      simp only [no_leading_digit, Bool.not_eq_true'] at hr
      simp [try_fold_number_go, hr]
  | cons d ds ih =>
    intro r maxB a seen hr hbound
    have hd : d.isDigit = true := hds d (by simp)
    have hstep : a * 10 + (d.toNat - 48) ≤ u32_max := by
      have := foldl_digits_ge ds (a * 10 + (d.toNat - 48))
      simp only [List.foldl] at hbound
      omega
    have hgo : try_fold_number_go maxB ((d :: ds) ++ r) a seen
        = try_fold_number_go maxB (ds ++ r) (a * 10 + (d.toNat - 48)) true := by
      simp only [List.cons_append, try_fold_number_go, hd, if_true]
      rw [if_pos hstep]
      rfl
    rw [hgo, ih (fun c hc => hds c (by simp [hc])) r maxB _ true hr
      (by simpa [List.foldl] using hbound)]
    simp [List.foldl]

/-- Claim C3 (amended): when the tokenizer meets `%` inside brackets it fails
with unexpected-percent consuming nothing further; outside brackets it
greedily folds the maximal run of following digits (not exactly two): no
digit gives invalid-ring-number, a folded value above 255 gives
integer-overflow, one in 100-255 gives ring-number overflow carrying the
value, one below 10 gives invalid-ring-number, and one in 10-99 yields a
`RingClosure` token with that number, the following non-digit character left
unconsumed.  Separately `RingNum::try_new` succeeds with `get()` returning
the value for 0-99 and fails with ring-number overflow carrying the value
above 99.  (The digit run is bounded by 9 digits here so that the `u32`
accumulator provably does not overflow; longer runs fail with
integer-overflow.) -/
theorem C3_percent_ring_closure_amended
    (ds r : List Char) (hds : ∀ c ∈ ds, c.isDigit = true)
    (hlen : ds.length ≤ 9) (hr : no_leading_digit r = true)
    (n : Nat) (hn : n ≤ 255) :
    (∀ s : List Char, ∀ b : Bool, b = true →
      parse_token '%' s b = (.error .UnexpectedPercent, s, b)) ∧
    parse_token '%' (ds ++ r) false =
      ((if ds.isEmpty then .error .InvalidRingNumber
        else if 255 < fold_digits_val ds then .error .IntegerOverflow
        else if 99 < fold_digits_val ds then
          .error (.RingNumberOverflow (fold_digits_val ds))
        else if fold_digits_val ds < 10 then .error .InvalidRingNumber
        else .ok (.RingClosure ⟨fold_digits_val ds⟩)), r, false) ∧
    (n ≤ 99 → ∃ rn, RingNum.try_new n = .ok rn ∧ rn.get = n) ∧
    (99 < n → RingNum.try_new n = .error (.RingNumberOverflow n)) := by
  refine ⟨fun s b hb => by subst hb; rfl, ?_, fun h99 => ⟨⟨n⟩, ?_, rfl⟩,
    fun h99 => ?_⟩
  · have hbound : fold_digits_val ds ≤ u32_max := by
      have := foldl_digits_lt ds hds 0
      have hpow : (10 : Nat) ^ ds.length ≤ 10 ^ 9 :=
        Nat.pow_le_pow_right (by omega) hlen
      unfold fold_digits_val u32_max
      simp only [Nat.one_mul] at this
      omega
    have hfold := try_fold_number_go_digits ds hds r 255 0 false hr hbound
    have hpt : parse_token '%' (ds ++ r) false =
        (match try_fold_number 255 (ds ++ r) with
         | (some (.ok num), s1) =>
           (match RingNum.try_new num with
            | .ok rn =>
              if rn.get < 10 then (.error .InvalidRingNumber, s1, false)
              else (.ok (.RingClosure rn), s1, false)
            | .error e => (.error e, s1, false))
         | (some (.error e), s1) => (.error e, s1, false)
         | (none, s1) => (.error .InvalidRingNumber, s1, false)) := rfl
    rw [hpt]
    unfold try_fold_number
    rw [hfold]
    cases ds with
    | nil => simp
    | cons d ds0 =>
      have hVe : fold_digits_val (d :: ds0) =
          List.foldl (fun x c => x * 10 + (c.toNat - 48)) 0 (d :: ds0) := rfl
      have hne : ((d :: ds0).isEmpty = true) = False := by simp
      simp only [hVe, hne, if_false, List.isEmpty_cons, Bool.not_false,
        Bool.or_true, if_true, Bool.false_eq_true, RingNum.try_new,
        RingNum.get]
      set V := List.foldl (fun x c => x * 10 + (c.toNat - 48)) 0 (d :: ds0) with hV
      by_cases h255 : V ≤ 255
      · rw [if_pos h255, if_neg (show ¬ 255 < V by omega)]
        dsimp only
        by_cases h99 : V ≤ 99
        · rw [if_pos h99, if_neg (show ¬ 99 < V by omega)]
          dsimp only
          by_cases h10 : V < 10
          · rw [if_pos h10, if_pos h10]
          · rw [if_neg h10, if_neg h10]
        · rw [if_neg h99, if_pos (show 99 < V by omega)]
      · rw [if_neg h255, if_pos (show 255 < V by omega)]
  · unfold RingNum.try_new
    rw [if_pos h99]
  · unfold RingNum.try_new
    rw [if_neg (by omega)]

/-- Witness for C3's amended claim: `ds = "23"`, `r = "]"`, `n = 150`. -/
theorem C3_percent_ring_closure_amended_witness :
    parse_token '%' ("23]".toList) false =
      (.ok (.RingClosure ⟨23⟩), "]".toList, false) ∧
    RingNum.try_new 150 = .error (.RingNumberOverflow 150) := by
  have h := C3_percent_ring_closure_amended "23".toList "]".toList
    (by decide) (by decide) (by decide) 150 (by decide)
  refine ⟨?_, h.2.2.2 (by decide)⟩
  have h2 := h.2.1
  simpa using h2

/-- A nonempty list prepended to `t` is never a suffix of `t`. -/
theorem suffix_append_contra {v t : List Char} (hv : v ≠ []) (h : v ++ t <:+ t) :
    False := by
  have hlen := h.length_le
  rw [List.length_append] at hlen
  exact hv (List.length_eq_zero.mp (by omega))

/-- Local determination for the digit-fold loop: a run on `q ++ t` that stops
with `v ++ t` remaining (`v` nonempty, so the stop was decided strictly
inside `q ++ v`) behaves identically for any other continuation `t'`. -/
theorem try_fold_number_go_local (maxB : Nat) :
    ∀ (q t t' : List Char) (a : Nat) (seen : Bool)
      (res : Option (Except SmilesError Nat)) (v : List Char), v ≠ [] →
      try_fold_number_go maxB (q ++ t) a seen = (res, v ++ t) →
      try_fold_number_go maxB (q ++ t') a seen = (res, v ++ t') := by
  intro q
  induction q with
  | nil =>
    intro t t' a seen res v hv h
    exfalso
    have hs := try_fold_number_go_rest_suffix maxB t a seen
    rw [List.nil_append] at h
    rw [h] at hs
    exact suffix_append_contra hv hs
  | cons c q' ih =>
    intro t t' a seen res v hv h
    simp only [List.cons_append, try_fold_number_go] at h ⊢
    by_cases hd : c.isDigit
    · simp only [hd, if_true] at h ⊢
      by_cases hb : a * 10 + (c.toNat - 48) ≤ u32_max
      · rw [if_pos hb] at h ⊢
        exact ih t t' _ true res v hv h
      · rw [if_neg hb] at h ⊢
        rw [Prod.mk.injEq] at h
        obtain ⟨hres, hrest⟩ := h
        have hq : q' = v := List.append_cancel_right hrest
        rw [Prod.mk.injEq]
        exact ⟨hres, by rw [hq]; rfl⟩
    · rw [if_neg hd] at h ⊢
      rw [Prod.mk.injEq] at h
      obtain ⟨hres, hrest⟩ := h
      have hq : c :: q' = v := by
        have : (c :: q') ++ t = v ++ t := by simpa using hrest
        exact List.append_cancel_right this
      rw [Prod.mk.injEq]
      refine ⟨hres, ?_⟩
      rw [← hq]
      simp

/-- Local determination for `try_fold_number`. -/
theorem try_fold_number_local (maxB : Nat) (q t t' : List Char)
    (res : Option (Except SmilesError Nat)) (v : List Char) (hv : v ≠ [])
    (h : try_fold_number maxB (q ++ t) = (res, v ++ t)) :
    try_fold_number maxB (q ++ t') = (res, v ++ t') :=
  try_fold_number_go_local maxB q t t' 0 false res v hv h

/-- Local determination for `hydrogen_count`. -/
theorem hydrogen_count_local (q t t' : List Char)
    (res : Except SmilesError HydrogenCount) (v : List Char) (hv : v ≠ [])
    (h : hydrogen_count (q ++ t) = (res, v ++ t)) :
    hydrogen_count (q ++ t') = (res, v ++ t') := by
  cases q with
  | nil =>
    exfalso
    have hs := hydrogen_count_rest_suffix t
    rw [List.nil_append] at h
    rw [h] at hs
    exact suffix_append_contra hv hs
  | cons c q' =>
    by_cases hc : c = 'H'
    · subst hc
      simp only [List.cons_append, hydrogen_count] at h ⊢
      rcases hf : try_fold_number 255 (q' ++ t) with ⟨fres, frest⟩
      rw [hf] at h
      cases fres with
      | none =>
        simp only [Prod.mk.injEq] at h
        obtain ⟨hres, hrest⟩ := h
        rw [try_fold_number_local 255 q' t t' none v hv (by rw [hf, hrest])]
        simp [hres]
      | some exc =>
        cases exc with
        | ok hcount =>
          simp only [Prod.mk.injEq] at h
          obtain ⟨hres, hrest⟩ := h
          rw [try_fold_number_local 255 q' t t' (some (.ok hcount)) v hv
            (by rw [hf, hrest])]
          simp [hres]
        | error e =>
          simp only [Prod.mk.injEq] at h
          obtain ⟨hres, hrest⟩ := h
          rw [try_fold_number_local 255 q' t t' (some (.error e)) v hv
            (by rw [hf, hrest])]
          simp [hres]
    · have hshape : ∀ x : List Char,
          hydrogen_count (c :: x) = (.ok .Unspecified, c :: x) := by
        intro x
        unfold hydrogen_count
        split
        · rename_i heq
          injection heq with h1 _
          exact absurd h1 hc
        · rfl
      rw [List.cons_append] at h ⊢
      rw [hshape] at h
      rw [hshape]
      simp only [Prod.mk.injEq] at h
      obtain ⟨hres, hrest⟩ := h
      have hq : c :: (q' ++ t) = v ++ t := hrest
      have : (c :: q') ++ t = v ++ t := by simpa using hq
      have hqv : c :: q' = v := List.append_cancel_right this
      simp only [Prod.mk.injEq]
      exact ⟨hres, by rw [← hqv]; rfl⟩

/-- Local determination for `try_class`. -/
theorem try_class_num_local (q t t' : List Char)
    (res : Except SmilesError Nat) (v : List Char) (hv : v ≠ [])
    (h : try_class_num (q ++ t) = (res, v ++ t)) :
    try_class_num (q ++ t') = (res, v ++ t') := by
  cases q with
  | nil =>
    exfalso
    have hs := try_class_num_rest_suffix t
    rw [List.nil_append] at h
    rw [h] at hs
    exact suffix_append_contra hv hs
  | cons c q' =>
    by_cases hc : c = ':'
    · subst hc
      simp only [List.cons_append, try_class_num] at h ⊢
      rcases hf : try_fold_number 65535 (q' ++ t) with ⟨fres, frest⟩
      rw [hf] at h
      cases fres with
      | none =>
        simp only [Prod.mk.injEq] at h
        obtain ⟨hres, hrest⟩ := h
        rw [try_fold_number_local 65535 q' t t' none v hv (by rw [hf, hrest])]
        simp [hres]
      | some exc =>
        simp only [Prod.mk.injEq] at h
        obtain ⟨hres, hrest⟩ := h
        rw [try_fold_number_local 65535 q' t t' (some exc) v hv
          (by rw [hf, hrest])]
        simp [hres]
    · have hshape : ∀ x : List Char,
          try_class_num (c :: x) = (.ok 0, c :: x) := by
        intro x
        unfold try_class_num
        split
        · rename_i heq
          injection heq with h1 _
          exact absurd h1 hc
        · rfl
      rw [List.cons_append] at h ⊢
      rw [hshape] at h
      rw [hshape]
      simp only [Prod.mk.injEq] at h
      obtain ⟨hres, hrest⟩ := h
      have : (c :: q') ++ t = v ++ t := by simpa using hrest
      have hqv : c :: q' = v := List.append_cancel_right this
      simp only [Prod.mk.injEq]
      exact ⟨hres, by rw [← hqv]; rfl⟩

/-- Local determination for `chirality_fold`. -/
theorem chirality_fold_local (q t t' : List Char)
    (mk : Nat → Except SmilesError Chirality)
    (res : Except SmilesError (Option Chirality)) (v : List Char) (hv : v ≠ [])
    (h : chirality_fold (q ++ t) mk = (res, v ++ t)) :
    chirality_fold (q ++ t') mk = (res, v ++ t') := by
  unfold chirality_fold at h ⊢
  rcases hf : try_fold_number 255 (q ++ t) with ⟨fres, frest⟩
  rw [hf] at h
  cases fres with
  | none =>
    simp only [Prod.mk.injEq] at h
    obtain ⟨hres, hrest⟩ := h
    rw [try_fold_number_local 255 q t t' none v hv (by rw [hf, hrest])]
    simp [hres]
  | some exc =>
    cases exc with
    | ok num =>
      simp only at h
      rcases hmk : mk num with ch | e <;> rw [hmk] at h <;>
        simp only [Prod.mk.injEq] at h <;> obtain ⟨hres, hrest⟩ := h <;>
        rw [try_fold_number_local 255 q t t' (some (.ok num)) v hv
          (by rw [hf, hrest])] <;> simp [hmk, hres]
    | error e =>
      simp only [Prod.mk.injEq] at h
      obtain ⟨hres, hrest⟩ := h
      rw [try_fold_number_local 255 q t t' (some (.error e)) v hv
        (by rw [hf, hrest])]
      simp [hres]

/-- Local determination for `chirality_tail_t`. -/
theorem chirality_tail_t_local (q t t' : List Char)
    (res : Except SmilesError (Option Chirality)) (v : List Char) (hv : v ≠ [])
    (h : chirality_tail_t (q ++ t) = (res, v ++ t)) :
    chirality_tail_t (q ++ t') = (res, v ++ t') := by
  cases q with
  | nil =>
    exfalso
    have hs := chirality_tail_t_rest_suffix t
    rw [List.nil_append] at h
    rw [h] at hs
    exact suffix_append_contra hv hs
  | cons c q' =>
    by_cases hH : c = 'H'
    · subst hH
      simp only [List.cons_append, chirality_tail_t] at h ⊢
      exact chirality_fold_local q' t t' _ res v hv h
    · by_cases hB : c = 'B'
      · subst hB
        simp only [List.cons_append, chirality_tail_t] at h ⊢
        exact chirality_fold_local q' t t' _ res v hv h
      · have hshape : ∀ x : List Char,
            chirality_tail_t (c :: x) = (.error .InvalidChirality, c :: x) := by
          intro x
          unfold chirality_tail_t
          split
          · rename_i heq
            injection heq with h1 _
            exact absurd h1 hH
          · rename_i heq
            injection heq with h1 _
            exact absurd h1 hB
          · rename_i heq
            exact absurd heq (by simp)
          · rfl
        rw [List.cons_append] at h ⊢
        rw [hshape] at h
        rw [hshape]
        simp only [Prod.mk.injEq] at h
        obtain ⟨hres, hrest⟩ := h
        have : (c :: q') ++ t = v ++ t := by simpa using hrest
        have hqv : c :: q' = v := List.append_cancel_right this
        simp only [Prod.mk.injEq]
        exact ⟨hres, by rw [← hqv]; rfl⟩

/-- Local determination for `chirality_tail_sp`. -/
theorem chirality_tail_sp_local (q t t' : List Char)
    (res : Except SmilesError (Option Chirality)) (v : List Char) (hv : v ≠ [])
    (h : chirality_tail_sp (q ++ t) = (res, v ++ t)) :
    chirality_tail_sp (q ++ t') = (res, v ++ t') := by
  cases q with
  | nil =>
    exfalso
    have hs := chirality_tail_sp_rest_suffix t
    rw [List.nil_append] at h
    rw [h] at hs
    exact suffix_append_contra hv hs
  | cons c q' =>
    by_cases hP : c = 'P'
    · subst hP
      simp only [List.cons_append, chirality_tail_sp] at h ⊢
      exact chirality_fold_local q' t t' _ res v hv h
    · have hshape : ∀ x : List Char,
          chirality_tail_sp (c :: x) = (.error .InvalidChirality, c :: x) := by
        intro x
        unfold chirality_tail_sp
        split
        · rename_i heq
          injection heq with h1 _
          exact absurd h1 hP
        · rename_i heq
          exact absurd heq (by simp)
        · rfl
      rw [List.cons_append] at h ⊢
      rw [hshape] at h
      rw [hshape]
      simp only [Prod.mk.injEq] at h
      obtain ⟨hres, hrest⟩ := h
      have : (c :: q') ++ t = v ++ t := by simpa using hrest
      have hqv : c :: q' = v := List.append_cancel_right this
      simp only [Prod.mk.injEq]
      exact ⟨hres, by rw [← hqv]; rfl⟩

/-- Local determination for `chirality_tail_oh`. -/
theorem chirality_tail_oh_local (q t t' : List Char)
    (res : Except SmilesError (Option Chirality)) (v : List Char) (hv : v ≠ [])
    (h : chirality_tail_oh (q ++ t) = (res, v ++ t)) :
    chirality_tail_oh (q ++ t') = (res, v ++ t') := by
  cases q with
  | nil =>
    exfalso
    have hs := chirality_tail_oh_rest_suffix t
    rw [List.nil_append] at h
    rw [h] at hs
    exact suffix_append_contra hv hs
  | cons c q' =>
    by_cases hH : c = 'H'
    · subst hH
      simp only [List.cons_append, chirality_tail_oh] at h ⊢
      exact chirality_fold_local q' t t' _ res v hv h
    · have hshape : ∀ x : List Char,
          chirality_tail_oh (c :: x) = (.error .InvalidChirality, c :: x) := by
        intro x
        unfold chirality_tail_oh
        split
        · rename_i heq
          injection heq with h1 _
          exact absurd h1 hH
        · rename_i heq
          exact absurd heq (by simp)
        · rfl
      rw [List.cons_append] at h ⊢
      rw [hshape] at h
      rw [hshape]
      simp only [Prod.mk.injEq] at h
      obtain ⟨hres, hrest⟩ := h
      have : (c :: q') ++ t = v ++ t := by simpa using hrest
      have hqv : c :: q' = v := List.append_cancel_right this
      simp only [Prod.mk.injEq]
      exact ⟨hres, by rw [← hqv]; rfl⟩

/-- Local determination for `chirality_after_at`. -/
theorem chirality_after_at_local (q t t' : List Char)
    (res : Except SmilesError (Option Chirality)) (v : List Char) (hv : v ≠ [])
    (h : chirality_after_at (q ++ t) = (res, v ++ t)) :
    chirality_after_at (q ++ t') = (res, v ++ t') := by
  cases q with
  | nil =>
    exfalso
    have hs := chirality_after_at_rest_suffix t
    rw [List.nil_append] at h
    rw [h] at hs
    exact suffix_append_contra hv hs
  | cons c2 q' =>
    simp only [List.cons_append, chirality_after_at, Bool.or_eq_true,
      decide_eq_true_eq] at h ⊢
    by_cases h1 : c2 = '@'
    · rw [if_pos h1] at h ⊢
      simp only [Prod.mk.injEq] at h
      obtain ⟨hres, hrest⟩ := h
      have hqv : q' = v := List.append_cancel_right hrest
      simp only [Prod.mk.injEq]
      exact ⟨hres, by rw [hqv]⟩
    · rw [if_neg h1] at h ⊢
      by_cases h2 : c2 = 'T'
      · rw [if_pos h2] at h ⊢
        exact chirality_tail_t_local (c2 :: q') t t' res v hv h
      · rw [if_neg h2] at h ⊢
        by_cases h3 : c2 = 'A' ∨ c2 = 'S'
        · rw [if_pos h3] at h ⊢
          exact chirality_tail_sp_local q' t t' res v hv h
        · rw [if_neg h3] at h ⊢
          by_cases h4 : c2 = 'O'
          · rw [if_pos h4] at h ⊢
            exact chirality_tail_oh_local q' t t' res v hv h
          · rw [if_neg h4] at h ⊢
            by_cases h5 : (((c2 = 'H' ∨ c2 = '-') ∨ c2 = '+') ∨ c2 = ':') ∨ c2 = ']'
            · rw [if_pos h5] at h ⊢
              simp only [Prod.mk.injEq] at h
              obtain ⟨hres, hrest⟩ := h
              have : (c2 :: q') ++ t = v ++ t := by simpa using hrest
              have hqv : c2 :: q' = v := List.append_cancel_right this
              simp only [Prod.mk.injEq]
              exact ⟨hres, by rw [← hqv]; rfl⟩
            · rw [if_neg h5] at h ⊢
              simp only [Prod.mk.injEq] at h
              obtain ⟨hres, hrest⟩ := h
              have : (c2 :: q') ++ t = v ++ t := by simpa using hrest
              have hqv : c2 :: q' = v := List.append_cancel_right this
              simp only [Prod.mk.injEq]
              exact ⟨hres, by rw [← hqv]; rfl⟩

/-- Local determination for `try_chirality`. -/
theorem try_chirality_local (q t t' : List Char)
    (res : Except SmilesError (Option Chirality)) (v : List Char) (hv : v ≠ [])
    (h : try_chirality (q ++ t) = (res, v ++ t)) :
    try_chirality (q ++ t') = (res, v ++ t') := by
  cases q with
  | nil =>
    exfalso
    have hs := try_chirality_rest_suffix t
    rw [List.nil_append] at h
    rw [h] at hs
    exact suffix_append_contra hv hs
  | cons c q' =>
    by_cases hc : c = '@'
    · subst hc
      simp only [List.cons_append, try_chirality] at h ⊢
      exact chirality_after_at_local q' t t' res v hv h
    · have hshape : ∀ x : List Char,
          try_chirality (c :: x) = (.ok none, c :: x) := by
        intro x
        unfold try_chirality
        split
        · rename_i heq
          injection heq with h1 _
          exact absurd h1 hc
        · rfl
      rw [List.cons_append] at h ⊢
      rw [hshape] at h
      rw [hshape]
      simp only [Prod.mk.injEq] at h
      obtain ⟨hres, hrest⟩ := h
      have : (c :: q') ++ t = v ++ t := by simpa using hrest
      have hqv : c :: q' = v := List.append_cancel_right this
      simp only [Prod.mk.injEq]
      exact ⟨hres, by rw [← hqv]; rfl⟩

/-- Local determination for `charge_after_minus`. -/
theorem charge_after_minus_local (q t t' : List Char)
    (res : Except SmilesError Charge) (v : List Char) (hv : v ≠ [])
    (h : charge_after_minus (q ++ t) = (res, v ++ t)) :
    charge_after_minus (q ++ t') = (res, v ++ t') := by
  cases q with
  | nil =>
    exfalso
    have hs := charge_after_minus_rest_suffix t
    rw [List.nil_append] at h
    rw [h] at hs
    exact suffix_append_contra hv hs
  | cons c q' =>
    by_cases hc : c = '-'
    · subst hc
      simp only [List.cons_append, charge_after_minus] at h ⊢
      simp only [Prod.mk.injEq] at h
      obtain ⟨hres, hrest⟩ := h
      have hqv : q' = v := List.append_cancel_right hrest
      simp only [Prod.mk.injEq]
      exact ⟨hres, by rw [hqv]⟩
    · have hshape : ∀ x : List Char, charge_after_minus (c :: x) =
          (match try_fold_number 127 (c :: x) with
           | (some (.ok n), r) => (Charge.try_new (-(n : Int)), r)
           | (some (.error e), r) => (.error e, r)
           | (none, r) => (Charge.try_new (-1), r)) := by
        intro x
        unfold charge_after_minus
        split
        · rename_i heq
          injection heq with h1 _
          exact absurd h1 hc
        · rfl
      rw [List.cons_append] at h ⊢
      rw [hshape] at h
      rw [hshape]
      rcases hf : try_fold_number 127 (c :: (q' ++ t)) with ⟨fres, frest⟩
      rw [hf] at h
      have hf2 : try_fold_number 127 ((c :: q') ++ t) = (fres, frest) := by
        simpa using hf
      cases fres with
      | none =>
        simp only [Prod.mk.injEq] at h
        obtain ⟨hres, hrest⟩ := h
        have := try_fold_number_local 127 (c :: q') t t' none v hv
          (by rw [hf2, hrest])
        rw [show (c :: q') ++ t' = c :: (q' ++ t') from rfl] at this
        rw [this]
        simp [hres]
      | some exc =>
        cases exc with
        | ok n =>
          simp only [Prod.mk.injEq] at h
          obtain ⟨hres, hrest⟩ := h
          have := try_fold_number_local 127 (c :: q') t t' (some (.ok n)) v hv
            (by rw [hf2, hrest])
          rw [show (c :: q') ++ t' = c :: (q' ++ t') from rfl] at this
          rw [this]
          simp [hres]
        | error e =>
          simp only [Prod.mk.injEq] at h
          obtain ⟨hres, hrest⟩ := h
          have := try_fold_number_local 127 (c :: q') t t' (some (.error e)) v hv
            (by rw [hf2, hrest])
          rw [show (c :: q') ++ t' = c :: (q' ++ t') from rfl] at this
          rw [this]
          simp [hres]

/-- Local determination for `charge_after_plus`. -/
theorem charge_after_plus_local (q t t' : List Char)
    (res : Except SmilesError Charge) (v : List Char) (hv : v ≠ [])
    (h : charge_after_plus (q ++ t) = (res, v ++ t)) :
    charge_after_plus (q ++ t') = (res, v ++ t') := by
  cases q with
  | nil =>
    exfalso
    have hs := charge_after_plus_rest_suffix t
    rw [List.nil_append] at h
    rw [h] at hs
    exact suffix_append_contra hv hs
  | cons c q' =>
    by_cases hc : c = '+'
    · subst hc
      simp only [List.cons_append, charge_after_plus] at h ⊢
      simp only [Prod.mk.injEq] at h
      obtain ⟨hres, hrest⟩ := h
      have hqv : q' = v := List.append_cancel_right hrest
      simp only [Prod.mk.injEq]
      exact ⟨hres, by rw [hqv]⟩
    · have hshape : ∀ x : List Char, charge_after_plus (c :: x) =
          (match try_fold_number 127 (c :: x) with
           | (some (.ok n), r) => (Charge.try_new (n : Int), r)
           | (some (.error e), r) => (.error e, r)
           | (none, r) => (Charge.try_new 1, r)) := by
        intro x
        unfold charge_after_plus
        split
        · rename_i heq
          injection heq with h1 _
          exact absurd h1 hc
        · rfl
      rw [List.cons_append] at h ⊢
      rw [hshape] at h
      rw [hshape]
      rcases hf : try_fold_number 127 (c :: (q' ++ t)) with ⟨fres, frest⟩
      rw [hf] at h
      have hf2 : try_fold_number 127 ((c :: q') ++ t) = (fres, frest) := by
        simpa using hf
      cases fres with
      | none =>
        simp only [Prod.mk.injEq] at h
        obtain ⟨hres, hrest⟩ := h
        have := try_fold_number_local 127 (c :: q') t t' none v hv
          (by rw [hf2, hrest])
        rw [show (c :: q') ++ t' = c :: (q' ++ t') from rfl] at this
        rw [this]
        simp [hres]
      | some exc =>
        cases exc with
        | ok n =>
          simp only [Prod.mk.injEq] at h
          obtain ⟨hres, hrest⟩ := h
          have := try_fold_number_local 127 (c :: q') t t' (some (.ok n)) v hv
            (by rw [hf2, hrest])
          rw [show (c :: q') ++ t' = c :: (q' ++ t') from rfl] at this
          rw [this]
          simp [hres]
        | error e =>
          simp only [Prod.mk.injEq] at h
          obtain ⟨hres, hrest⟩ := h
          have := try_fold_number_local 127 (c :: q') t t' (some (.error e)) v hv
            (by rw [hf2, hrest])
          rw [show (c :: q') ++ t' = c :: (q' ++ t') from rfl] at this
          rw [this]
          simp [hres]

/-- Local determination for `try_charge`. -/
theorem try_charge_local (q t t' : List Char)
    (res : Except SmilesError Charge) (v : List Char) (hv : v ≠ [])
    (h : try_charge (q ++ t) = (res, v ++ t)) :
    try_charge (q ++ t') = (res, v ++ t') := by
  cases q with
  | nil =>
    exfalso
    have hs := try_charge_rest_suffix t
    rw [List.nil_append] at h
    rw [h] at hs
    exact suffix_append_contra hv hs
  | cons c q' =>
    by_cases hm : c = '-'
    · subst hm
      simp only [List.cons_append, try_charge] at h ⊢
      exact charge_after_minus_local q' t t' res v hv h
    · by_cases hp : c = '+'
      · subst hp
        simp only [List.cons_append, try_charge] at h ⊢
        exact charge_after_plus_local q' t t' res v hv h
      · have hshape : ∀ x : List Char,
            try_charge (c :: x) = (.ok Charge.default, c :: x) := by
          intro x
          unfold try_charge
          split
          · rename_i heq
            injection heq with h1 _
            exact absurd h1 hm
          · rename_i heq
            injection heq with h1 _
            exact absurd h1 hp
          · rfl
        rw [List.cons_append] at h ⊢
        rw [hshape] at h
        rw [hshape]
        simp only [Prod.mk.injEq] at h
        obtain ⟨hres, hrest⟩ := h
        have : (c :: q') ++ t = v ++ t := by simpa using hrest
        have hqv : c :: q' = v := List.append_cancel_right this
        simp only [Prod.mk.injEq]
        exact ⟨hres, by rw [← hqv]; rfl⟩

/-- Local determination for `try_element_from_first`. -/
theorem try_element_from_first_local (b : Bool) (c1 : Char) (q t t' : List Char)
    (res : Except SmilesError (AtomSymbol × Bool)) (v : List Char) (hv : v ≠ [])
    (h : try_element_from_first b c1 (q ++ t) = (res, v ++ t)) :
    try_element_from_first b c1 (q ++ t') = (res, v ++ t') := by
  cases q with
  | nil =>
    exfalso
    have hs := try_element_from_first_rest_suffix b c1 t
    rw [List.nil_append] at h
    rw [h] at hs
    exact suffix_append_contra hv hs
  | cons c2 q' =>
    rw [List.cons_append] at h ⊢
    unfold try_element_from_first at h ⊢
    by_cases hstar : c1 = '*'
    · rw [if_pos hstar] at h ⊢
      simp only [Prod.mk.injEq] at h
      obtain ⟨hres, hrest⟩ := h
      have : (c2 :: q') ++ t = v ++ t := by simpa using hrest
      have hqv : c2 :: q' = v := List.append_cancel_right this
      simp only [Prod.mk.injEq]
      exact ⟨hres, by rw [← hqv]; rfl⟩
    · rw [if_neg hstar] at h ⊢
      by_cases halpha : c1.isAlpha
      · have hna : ¬((!c1.isAlpha) = true) := by simp [halpha]
        rw [if_neg hna] at h ⊢
        dsimp only at h ⊢
        by_cases hc : (c2.isAlpha && c1.isLower && c2.isLower) = true
        · rw [if_pos hc] at h ⊢
          rcases hfs : Element.from_str (String.mk [c1.toUpper, c2]) with _ | e <;>
            rw [hfs] at h
          · simp only [Prod.mk.injEq] at h
            obtain ⟨hres, hrest⟩ := h
            have : (c2 :: q') ++ t = v ++ t := by simpa using hrest
            have hqv : c2 :: q' = v := List.append_cancel_right this
            simp only [Prod.mk.injEq]
            exact ⟨hres, by rw [← hqv]; rfl⟩
          · simp only [] at h ⊢
            rcases ha : aromatic_from_element b e with a | err <;>
              rw [ha] at h <;>
              simp only [Prod.mk.injEq] at h ⊢ <;> obtain ⟨hres, hrest⟩ := h <;>
              have hqv : q' = v := List.append_cancel_right hrest <;>
              exact ⟨hres, by rw [hqv]⟩
        · rw [if_neg hc] at h ⊢
          by_cases hc2 : (c2.isAlpha && !c1.isLower && c2.isLower) = true
          · rw [if_pos hc2] at h ⊢
            rcases hfs : Element.from_str (String.mk [c1, c2]) with _ | e <;>
              rw [hfs] at h
            · simp only [Prod.mk.injEq] at h
              obtain ⟨hres, hrest⟩ := h
              have : (c2 :: q') ++ t = v ++ t := by simpa using hrest
              have hqv : c2 :: q' = v := List.append_cancel_right this
              simp only [Prod.mk.injEq]
              exact ⟨hres, by rw [← hqv]; rfl⟩
            · simp only [Prod.mk.injEq] at h
              obtain ⟨hres, hrest⟩ := h
              have hqv : q' = v := List.append_cancel_right hrest
              simp only [Prod.mk.injEq]
              exact ⟨hres, by rw [hqv]⟩
          · rw [if_neg hc2] at h ⊢
            simp only [Prod.mk.injEq] at h
            obtain ⟨hres, hrest⟩ := h
            have : (c2 :: q') ++ t = v ++ t := by simpa using hrest
            have hqv : c2 :: q' = v := List.append_cancel_right this
            simp only [Prod.mk.injEq]
            exact ⟨hres, by rw [← hqv]; rfl⟩
      · have hna : (!c1.isAlpha) = true := by simp [halpha]
        rw [if_pos hna] at h ⊢
        simp only [Prod.mk.injEq] at h
        obtain ⟨hres, hrest⟩ := h
        have : (c2 :: q') ++ t = v ++ t := by simpa using hrest
        have hqv : c2 :: q' = v := List.append_cancel_right this
        simp only [Prod.mk.injEq]
        exact ⟨hres, by rw [← hqv]; rfl⟩

/-- Local determination for `try_element`. -/
theorem try_element_local (b : Bool) (q t t' : List Char)
    (res : Except SmilesError (AtomSymbol × Bool)) (v : List Char) (hv : v ≠ [])
    (h : try_element b (q ++ t) = (res, v ++ t)) :
    try_element b (q ++ t') = (res, v ++ t') := by
  cases q with
  | nil =>
    exfalso
    have hs := try_element_rest_suffix b t
    rw [List.nil_append] at h
    rw [h] at hs
    exact suffix_append_contra hv hs
  | cons c1 q' =>
    simp only [List.cons_append, try_element] at h ⊢
    exact try_element_from_first_local b c1 q' t t' res v hv h

/-- Local determination for `parse_bracket_body`: a successful bracket body
that consumes exactly `q` (leaving `t`) behaves the same over any suffix. -/
theorem parse_bracket_body_local (b0 : BracketAtomBuilder) (q t t' : List Char)
    (tok : Token)
    (h : parse_bracket_body b0 (q ++ t) = (.ok tok, t, false)) :
    parse_bracket_body b0 (q ++ t') = (.ok tok, t', false) := by
  have hdec : ∀ s : List Char, (']' :: t) <:+ s → ∃ w : List Char,
      s = (w ++ [']']) ++ t := by
    intro s hs
    obtain ⟨u, hu⟩ := hs
    exact ⟨u, by rw [← hu]; simp⟩
  unfold parse_bracket_body at h ⊢
  split at h
  · simp at h
  rename_i atom aromatic s2 heq1
  try simp only [] at h
  split at h
  · simp at h
  rename_i chi s3 heq2
  try simp only [] at h
  split at h
  · simp at h
  rename_i hns
  split at h
  · simp at h
  rename_i hyd s4 heq3
  try simp only [] at h
  split at h
  · simp at h
  rename_i charge s5 heq4
  try simp only [] at h
  split at h
  · simp at h
  rename_i cl s6 heq5
  try simp only [] at h
  split at h
  case _ s7 =>
    simp only [Prod.mk.injEq, Except.ok.injEq] at h
    obtain ⟨htok, hs7, -⟩ := h
    subst s7
    have h6 : (']' :: t) <:+ s5 := by
      have := try_class_num_rest_suffix s5; rwa [heq5] at this
    have h5s : s5 <:+ s4 := by
      have := try_charge_rest_suffix s4; rwa [heq4] at this
    have h4s : s4 <:+ s3 := by
      have := hydrogen_count_rest_suffix s3; rwa [heq3] at this
    have h3s : s3 <:+ s2 := by
      have := try_chirality_rest_suffix s2; rwa [heq2] at this
    obtain ⟨w5, hw5⟩ := hdec s5 h6
    obtain ⟨w4, hw4⟩ := hdec s4 (h6.trans h5s)
    obtain ⟨w3, hw3⟩ := hdec s3 ((h6.trans h5s).trans h4s)
    obtain ⟨w2, hw2⟩ := hdec s2 (((h6.trans h5s).trans h4s).trans h3s)
    rw [hw2] at heq1 heq2
    rw [hw3] at heq2 heq3
    rw [hw4] at heq3 heq4
    rw [hw5] at heq4 heq5
    have hE := try_element_local true q t t' _ _ (by simp) heq1
    have hC := try_chirality_local _ t t' _ _ (by simp) heq2
    have hH := hydrogen_count_local _ t t' _ _ (by simp) heq3
    have hG := try_charge_local _ t t' _ _ (by simp) heq4
    have hN := try_class_num_local _ t t' _ [']'] (by simp) heq5
    subst htok
    rw [hE]
    simp only []
    rw [hC]
    simp only []
    rw [if_neg hns]
    rw [hH]
    simp only []
    rw [hG]
    simp only []
    rw [hN, List.singleton_append]
    simp only []
  · simp at h

/-- Isolation for `try_element_from_first`: a run that consumes exactly `q`
(stopping right at the boundary of `t`) gives the same result on `q` alone. -/
theorem try_element_from_first_isolate (b : Bool) (c1 : Char) (q t : List Char)
    (res : Except SmilesError (AtomSymbol × Bool))
    (h : try_element_from_first b c1 (q ++ t) = (res, t)) :
    try_element_from_first b c1 q = (res, []) := by
  have hlen : ∀ (c : Char) (x y : List Char), ¬(c :: (x ++ y) = y) := by
    intro c x y hxy
    have := congrArg List.length hxy
    rw [List.length_cons, List.length_append] at this
    omega
  have hnil : ∀ (x y : List Char), x ++ y = y → x = [] := by
    intro x y hxy
    have := congrArg List.length hxy
    rw [List.length_append] at this
    exact List.length_eq_zero.mp (by omega)
  unfold try_element_from_first at h ⊢
  by_cases hstar : c1 = '*'
  · rw [if_pos hstar] at h ⊢
    simp only [Prod.mk.injEq] at h
    obtain ⟨h1, h2⟩ := h
    have hq : q = [] := hnil q t h2
    subst hq
    rw [← h1]
  · rw [if_neg hstar] at h ⊢
    by_cases halpha : c1.isAlpha
    · have hna : ¬((!c1.isAlpha) = true) := by simp [halpha]
      rw [if_neg hna] at h ⊢
      cases q with
      | nil =>
        rw [List.nil_append] at h
        simp only []
        cases t with
        | nil =>
          simp only [Prod.mk.injEq] at h
          obtain ⟨h1, h2⟩ := h
          rw [← h1]
        | cons c2 r =>
          simp only [] at h
          by_cases hc : (c2.isAlpha && c1.isLower && c2.isLower) = true
          · rw [if_pos hc] at h
            rcases hfs : Element.from_str (String.mk [c1.toUpper, c2]) with _ | e
            · rw [hfs] at h
              simp only [Prod.mk.injEq] at h
              obtain ⟨h1, h2⟩ := h
              rw [← h1]
            · rw [hfs] at h
              simp only [] at h
              rcases ha : aromatic_from_element b e with a | ar <;>
                rw [ha] at h <;> simp only [Prod.mk.injEq] at h <;>
                exact absurd (congrArg List.length h.2)
                  (by simp only [List.length_cons]; omega)
          · rw [if_neg hc] at h
            by_cases hc2 : (c2.isAlpha && !c1.isLower && c2.isLower) = true
            · rw [if_pos hc2] at h
              rcases hfs : Element.from_str (String.mk [c1, c2]) with _ | e <;>
                rw [hfs] at h <;> simp only [Prod.mk.injEq] at h
              · obtain ⟨h1, h2⟩ := h
                rw [← h1]
              · exact absurd (congrArg List.length h.2)
                  (by simp only [List.length_cons]; omega)
            · rw [if_neg hc2] at h
              simp only [Prod.mk.injEq] at h
              obtain ⟨h1, h2⟩ := h
              rw [← h1]
      | cons c2 q' =>
        rw [List.cons_append] at h
        simp only [] at h
        simp only []
        by_cases hc : (c2.isAlpha && c1.isLower && c2.isLower) = true
        · rw [if_pos hc] at h ⊢
          rcases hfs : Element.from_str (String.mk [c1.toUpper, c2]) with _ | e <;>
            rw [hfs] at h
          · simp only [Prod.mk.injEq] at h
            exact absurd h.2 (hlen c2 q' t)
          · simp only [] at h ⊢
            rcases ha : aromatic_from_element b e with a | ar <;>
              rw [ha] at h <;> simp only [Prod.mk.injEq] at h
            · obtain ⟨h1, h2⟩ := h
              have hq' : q' = [] := hnil q' t h2
              subst hq'
              rw [← h1]
            · obtain ⟨h1, h2⟩ := h
              have hq' : q' = [] := hnil q' t h2
              subst hq'
              rw [← h1]
        · rw [if_neg hc] at h ⊢
          by_cases hc2 : (c2.isAlpha && !c1.isLower && c2.isLower) = true
          · rw [if_pos hc2] at h ⊢
            rcases hfs : Element.from_str (String.mk [c1, c2]) with _ | e <;>
              rw [hfs] at h <;> simp only [Prod.mk.injEq] at h
            · exact absurd h.2 (hlen c2 q' t)
            · obtain ⟨h1, h2⟩ := h
              have hq' : q' = [] := hnil q' t h2
              subst hq'
              rw [← h1]
          · rw [if_neg hc2] at h ⊢
            simp only [Prod.mk.injEq] at h
            exact absurd h.2 (hlen c2 q' t)
    · have hna : (!c1.isAlpha) = true := by simp [halpha]
      rw [if_pos hna] at h ⊢
      simp only [Prod.mk.injEq] at h
      obtain ⟨h1, h2⟩ := h
      have hq : q = [] := hnil q t h2
      subst hq
      rw [← h1]

/-- A successful bracket body consumed at least the closing `]` (the rest is a
strict suffix preceded by `]`) and reset the in-bracket flag. -/
theorem parse_bracket_body_ok_strict (b0 : BracketAtomBuilder) (s : List Char)
    (tok : Token) (r : List Char) (fl : Bool)
    (h : parse_bracket_body b0 s = (.ok tok, r, fl)) :
    ((']' :: r) <:+ s) ∧ fl = false := by
  unfold parse_bracket_body at h
  split at h
  · simp at h
  rename_i atom aromatic s2 heq1
  try simp only [] at h
  split at h
  · simp at h
  rename_i chi s3 heq2
  try simp only [] at h
  split at h
  · simp at h
  rename_i hns
  split at h
  · simp at h
  rename_i hyd s4 heq3
  try simp only [] at h
  split at h
  · simp at h
  rename_i charge s5 heq4
  try simp only [] at h
  split at h
  · simp at h
  rename_i cl s6 heq5
  try simp only [] at h
  split at h
  case _ s7 =>
    simp only [Prod.mk.injEq, Except.ok.injEq] at h
    obtain ⟨-, hs7, hfl⟩ := h
    refine ⟨?_, hfl.symm⟩
    rw [← hs7]
    have h6 : (']' :: s7) <:+ s5 := by
      have := try_class_num_rest_suffix s5; rwa [heq5] at this
    have h5s : s5 <:+ s4 := by
      have := try_charge_rest_suffix s4; rwa [heq4] at this
    have h4s : s4 <:+ s3 := by
      have := hydrogen_count_rest_suffix s3; rwa [heq3] at this
    have h3s : s3 <:+ s2 := by
      have := try_chirality_rest_suffix s2; rwa [heq2] at this
    have h2s : s2 <:+ s := by
      have := try_element_rest_suffix true s; rwa [heq1] at this
    exact (((h6.trans h5s).trans h4s).trans h3s).trans h2s
  · simp at h

/-- A token accepted by `parse_token` that is an atom token can only arise with
the in-bracket flag clear on entry, and leaves it clear on exit. -/
theorem parse_token_atom_flag (c : Char) (s : List Char) (b : Bool)
    (tok : Token) (s1 : List Char) (b1 : Bool)
    (hatom : is_atom_token tok = true)
    (h : parse_token c s b = (.ok tok, s1, b1)) :
    b = false ∧ b1 = false := by
  have hbf : ∀ (x : Bool), ¬ x = true → x = false := by decide
  have hnotatom : ∀ (tk : Token) (x y : List Char) (u v : Bool),
      ((Except.ok tk : Except SmilesError Token), x, u) =
        ((Except.ok tok : Except SmilesError Token), y, v) →
      is_atom_token tk = false → False := by
    intro tk x y u v heq hne
    simp only [Prod.mk.injEq, Except.ok.injEq] at heq
    rw [heq.1, hatom] at hne
    exact Bool.noConfusion hne
  unfold parse_token at h
  split at h
  · -- current char is a dot
    split at h
    · simp at h
    · exact (hnotatom _ _ _ _ _ h rfl).elim
  · split at h
    · -- left bracket
      split at h
      · simp at h
      rename_i hb
      split at h
      · simp at h
      · exact ⟨hbf b hb, (parse_bracket_body_ok_strict _ _ _ _ _ h).2⟩
      · exact ⟨hbf b hb, (parse_bracket_body_ok_strict _ _ _ _ _ h).2⟩
    · split at h
      · -- alphabetic or wildcard
        split at h
        · simp at h
        · split at h
          · simp at h
          · split at h
            · simp at h
            · rename_i hb
              simp only [Prod.mk.injEq, Except.ok.injEq] at h
              exact ⟨hbf b hb, h.2.2 ▸ hbf b hb⟩
      · split at h
        · -- digit or percent
          split at h
          · split at h
            · simp at h
            · split at h
              · split at h
                · split at h
                  · simp at h
                  · exact (hnotatom _ _ _ _ _ h rfl).elim
                · simp at h
              · simp at h
              · simp at h
          · split at h
            · exact (hnotatom _ _ _ _ _ h rfl).elim
            · simp at h
        · split at h
          · -- bond characters
            have h1 : try_bond c b = .ok tok := by
              have := congrArg Prod.fst h
              simpa using this
            unfold try_bond at h1
            repeat' split at h1
            all_goals first
              | (injection h1 with h2; rw [← h2] at hatom;
                 simp [is_atom_token] at hatom)
              | injection h1
          · split at h
            · -- left parenthesis
              split at h
              · simp at h
              · exact (hnotatom _ _ _ _ _ h rfl).elim
            · split at h
              · -- right parenthesis
                split at h
                · simp at h
                · exact (hnotatom _ _ _ _ _ h rfl).elim
              · simp at h

/-- Isolation for `parse_token` on an atom token: a token parsed out of
`q ++ t` that consumes exactly `q` (leaving `t`, flags clear) parses the same
way from `q` alone. -/
theorem parse_token_isolate (c : Char) (q t : List Char) (tok : Token)
    (hatom : is_atom_token tok = true)
    (h : parse_token c (q ++ t) false = (.ok tok, t, false)) :
    parse_token c q false = (.ok tok, [], false) := by
  unfold parse_token at h ⊢
  by_cases h1 : c = '.'
  · rw [if_pos h1] at h
    rw [if_neg (by decide)] at h
    simp only [Prod.mk.injEq, Except.ok.injEq] at h
    rw [← h.1] at hatom
    exact absurd hatom (by simp [is_atom_token])
  · rw [if_neg h1] at h ⊢
    by_cases h2 : c = '['
    · rw [if_pos h2] at h ⊢
      rw [if_neg (by decide)] at h ⊢
      rcases hfold : try_fold_number 65535 (q ++ t) with ⟨(_ | (e | iso)), s1⟩
      · rw [hfold] at h
        simp only [] at h
        obtain ⟨hsuf, -⟩ := parse_bracket_body_ok_strict _ _ _ _ _ h
        obtain ⟨w, hw⟩ := hsuf
        have hs1 : s1 = (w ++ [']']) ++ t := by rw [← hw]; simp
        rw [hs1] at h hfold
        have hfold2 := try_fold_number_local 65535 q t [] _ _ (by simp) hfold
        rw [List.append_nil, List.append_nil] at hfold2
        have hbody := parse_bracket_body_local _ _ _ [] _ h
        rw [List.append_nil] at hbody
        rw [hfold2]
        simp only []
        exact hbody
      · rw [hfold] at h
        simp only [] at h
        simp at h
      · rw [hfold] at h
        simp only [] at h
        obtain ⟨hsuf, -⟩ := parse_bracket_body_ok_strict _ _ _ _ _ h
        obtain ⟨w, hw⟩ := hsuf
        have hs1 : s1 = (w ++ [']']) ++ t := by rw [← hw]; simp
        rw [hs1] at h hfold
        have hfold2 := try_fold_number_local 65535 q t [] _ _ (by simp) hfold
        rw [List.append_nil, List.append_nil] at hfold2
        have hbody := parse_bracket_body_local _ _ _ [] _ h
        rw [List.append_nil] at hbody
        rw [hfold2]
        simp only []
        exact hbody
    · rw [if_neg h2] at h ⊢
      by_cases h3 : (c.isAlpha || c = '*') = true
      · rw [if_pos h3] at h ⊢
        rcases hel : try_element_from_first false c (q ++ t) with ⟨er | ⟨symbol, aromatic⟩, s1⟩
        · rw [hel] at h
          simp at h
        · rw [hel] at h
          simp only [] at h
          by_cases hval : (!valid_unbracketed symbol) = true
          · rw [if_pos hval] at h
            simp at h
          · rw [if_neg hval] at h
            rw [if_neg (by decide)] at h
            simp only [Prod.mk.injEq, Except.ok.injEq] at h
            obtain ⟨htok, hs1, -⟩ := h
            subst s1
            have hiso := try_element_from_first_isolate false c q t _ hel
            rw [hiso]
            simp only []
            rw [if_neg hval, if_neg (by decide), ← htok]
      · rw [if_neg h3] at h ⊢
        by_cases h4 : (c.isDigit || c = '%') = true
        · rw [if_pos h4] at h
          by_cases h5 : c = '%'
          · rw [if_pos h5] at h
            rw [if_neg (by decide)] at h
            rcases hfold : try_fold_number 255 (q ++ t) with ⟨(_ | (e | num)), s1⟩ <;>
              rw [hfold] at h <;> simp only [] at h
            · simp at h
            · simp at h
            · rcases hrn : RingNum.try_new num with e | rn <;>
                rw [hrn] at h <;> simp only [] at h
              · simp at h
              · by_cases h6 : rn.get < 10
                · rw [if_pos h6] at h
                  simp at h
                · rw [if_neg h6] at h
                  simp only [Prod.mk.injEq, Except.ok.injEq] at h
                  rw [← h.1] at hatom
                  exact absurd hatom (by simp [is_atom_token])
          · rw [if_neg h5] at h
            rcases hrn : RingNum.try_new (c.toNat - 48) with e | rn <;>
              rw [hrn] at h <;> simp only [] at h
            · simp at h
            · simp only [Prod.mk.injEq, Except.ok.injEq] at h
              rw [← h.1] at hatom
              exact absurd hatom (by simp [is_atom_token])
        · rw [if_neg h4] at h
          split at h
          · have hb1 : try_bond c false = .ok tok := by
              have := congrArg Prod.fst h
              simpa using this
            unfold try_bond at hb1
            repeat' split at hb1
            all_goals first
              | (injection hb1 with hb2; rw [← hb2] at hatom;
                 simp [is_atom_token] at hatom)
              | injection hb1
          · split at h
            · rw [if_neg (by decide)] at h
              simp only [Prod.mk.injEq, Except.ok.injEq] at h
              rw [← h.1] at hatom
              exact absurd hatom (by simp [is_atom_token])
            · split at h
              · rw [if_neg (by decide)] at h
                simp only [Prod.mk.injEq, Except.ok.injEq] at h
                rw [← h.1] at hatom
                exact absurd hatom (by simp [is_atom_token])
              · simp at h

/-- Unfolding equation of `byte_slice` on a cons cell. -/
theorem byte_slice_cons (c : Char) (r : List Char) (start stop : Nat) :
    byte_slice (c :: r) start stop
    = if start = 0 then
        if stop = 0 then [] else c :: byte_slice r 0 (stop - c.utf8Size)
      else byte_slice r (start - c.utf8Size) (stop - c.utf8Size) := rfl

/-- Slicing from byte offset 0 for the byte length of a prefix returns the
prefix. -/
theorem byte_slice_prefix (m r : List Char) :
    byte_slice (m ++ r) 0 (utf8_len m) = m := by
  induction m with
  | nil =>
    cases r with
    | nil => rfl
    | cons c r' => simp [byte_slice_cons, utf8_len]
  | cons c m' ih =>
    have hpos := Char.utf8Size_pos c
    rw [List.cons_append, byte_slice_cons]
    rw [if_pos rfl, if_neg (by simp only [utf8_len]; omega)]
    have hsub : utf8_len (c :: m') - c.utf8Size = utf8_len m' := by
      simp only [utf8_len]; omega
    rw [hsub, ih]

/-- Slicing the byte span of a middle segment returns that segment. -/
theorem byte_slice_decomp (p m r : List Char) :
    byte_slice (p ++ (m ++ r)) (utf8_len p) (utf8_len p + utf8_len m) = m := by
  induction p with
  | nil => simp only [List.nil_append, utf8_len, Nat.zero_add]; exact byte_slice_prefix m r
  | cons c p' ih =>
    have hpos := Char.utf8Size_pos c
    rw [List.cons_append, byte_slice_cons]
    rw [if_neg (by simp only [utf8_len]; omega)]
    have h1 : utf8_len (c :: p') - c.utf8Size = utf8_len p' := by
      simp only [utf8_len]; omega
    have h2 : utf8_len (c :: p') + utf8_len m - c.utf8Size
        = utf8_len p' + utf8_len m := by
      simp only [utf8_len]; omega
    rw [h1, h2, ih]

/-- The tokenizer emits nothing on an exhausted stream. -/
theorem tokenize_from_nil (fuel len : Nat) (b : Bool) :
    tokenize_from fuel len [] b = [] := by
  cases fuel <;> rfl

/-- Every ok atom item of the token stream marks off a segment of the input
that one `parse_token` call consumes exactly, with the span's endpoints at the
byte offsets delimiting that segment. -/
theorem tokenize_from_atom_decomp (fuel : Nat) :
    ∀ (len : Nat) (s : List Char) (b : Bool) (tok : Token) (a e : Nat),
    Except.ok ⟨tok, a, e⟩ ∈ tokenize_from fuel len s b →
    is_atom_token tok = true →
    ∃ (p u rest : List Char) (c : Char),
      s = p ++ (c :: u) ++ rest ∧
      a = len - utf8_len ((c :: u) ++ rest) ∧
      e = len - utf8_len rest ∧
      parse_token c u false = (.ok tok, [], false) := by
  induction fuel with
  | zero =>
    intro len s b tok a e hmem hatom
    simp [tokenize_from] at hmem
  | succ fuel ih =>
    intro len s b tok a e hmem hatom
    cases s with
    | nil => simp [tokenize_from] at hmem
    | cons c0 rest0 =>
      simp only [tokenize_from] at hmem
      rcases hpt : parse_token c0 rest0 b with ⟨r, rest1, b1⟩
      rw [hpt] at hmem
      rcases r with e0 | token
      · simp only [] at hmem
        simp only [List.mem_cons] at hmem
        rcases hmem with hhead | htail
        · exact Except.noConfusion hhead
        · obtain ⟨p', u', rest', c', hs', ha', he', hiso'⟩ :=
            ih len rest1 b1 tok a e htail hatom
          have hsuf : rest1 <:+ rest0 := by
            have := parse_token_rest_suffix c0 rest0 b; rwa [hpt] at this
          obtain ⟨w, hw⟩ := hsuf
          refine ⟨c0 :: (w ++ p'), u', rest', c', ?_, ha', he', hiso'⟩
          rw [← hw, hs']
          simp [List.append_assoc]
      · simp only [] at hmem
        simp only [List.mem_cons] at hmem
        rcases hmem with hhead | htail
        · simp only [Except.ok.injEq, TokenWithSpan.mk.injEq] at hhead
          obtain ⟨htok, ha, he⟩ := hhead
          subst htok
          obtain ⟨hb, hb1⟩ := parse_token_atom_flag c0 rest0 b tok rest1 b1 hatom hpt
          subst hb
          subst hb1
          have hsuf : rest1 <:+ rest0 := by
            have := parse_token_rest_suffix c0 rest0 false; rwa [hpt] at this
          obtain ⟨u, hu⟩ := hsuf
          refine ⟨[], u, rest1, c0, ?_, ?_, he, ?_⟩
          · rw [← hu]
            simp
          · rw [ha, ← hu, List.cons_append]
          · rw [← hu] at hpt
            exact parse_token_isolate c0 u rest1 tok hatom hpt
        · obtain ⟨p', u', rest', c', hs', ha', he', hiso'⟩ :=
            ih len rest1 b1 tok a e htail hatom
          have hsuf : rest1 <:+ rest0 := by
            have := parse_token_rest_suffix c0 rest0 b; rwa [hpt] at this
          obtain ⟨w, hw⟩ := hsuf
          refine ⟨c0 :: (w ++ p'), u', rest', c', ?_, ha', he', hiso'⟩
          rw [← hw, hs']
          simp [List.append_assoc]

/-- C7: for every input string that tokenizes successfully (every item of the
stream is an ok token) and every atom token (bracketed or unbracketed) in the
result, re-tokenizing in isolation the substring of the input delimited by
that token's byte span yields exactly one token equal to the original atom
token, with its span rebased to start at 0. -/
theorem C7_atom_span_retokenize (s : List Char) (tok : Token) (a e : Nat)
    (hall : ∀ it ∈ tokenize s, ∃ tw, it = Except.ok tw)
    (hmem : Except.ok ⟨tok, a, e⟩ ∈ tokenize s)
    (hatom : is_atom_token tok = true) :
    tokenize (byte_slice s a e) = [Except.ok ⟨tok, 0, e - a⟩] := by
  obtain ⟨p, u, rest, c, hs, ha, he, hiso⟩ :=
    tokenize_from_atom_decomp s.length (utf8_len s) s false tok a e hmem hatom
  subst hs
  have hlen : utf8_len (p ++ (c :: u) ++ rest)
      = utf8_len p + utf8_len (c :: u) + utf8_len rest := by
    rw [utf8_len_append, utf8_len_append]
  have hcu : utf8_len ((c :: u) ++ rest) = utf8_len (c :: u) + utf8_len rest :=
    utf8_len_append _ _
  have ha2 : a = utf8_len p := by
    rw [ha, hlen, hcu]; omega
  have he2 : e = utf8_len p + utf8_len (c :: u) := by
    have hr : utf8_len rest ≤ utf8_len (p ++ (c :: u) ++ rest) := by
      rw [hlen]; omega
    rw [he, hlen]; omega
  have hea : e - a = utf8_len (c :: u) := by omega
  rw [hea, ha2, he2, List.append_assoc, byte_slice_decomp]
  unfold tokenize
  simp only [List.length_cons, tokenize_from]
  rw [hiso]
  simp only []
  rw [tokenize_from_nil]
  simp [utf8_len, Nat.sub_self]

/-- Witness for C7 on the input `Cl[OH2]`: the bracketed atom token spanning
bytes 2–7 re-tokenizes from its slice alone, rebased to span 0–5. -/
theorem C7_atom_span_retokenize_witness :
    tokenize (byte_slice ("Cl[OH2]".data) 2 7)
      = [Except.ok ⟨Token.BracketedAtom
          ⟨AtomSymbol.Element Element.O, none, false, HydrogenCount.Explicit 2,
            ⟨0⟩, 0, none⟩, 0, 7 - 2⟩] :=
  C7_atom_span_retokenize ("Cl[OH2]".data)
    (Token.BracketedAtom
      ⟨AtomSymbol.Element Element.O, none, false, HydrogenCount.Explicit 2,
        ⟨0⟩, 0, none⟩) 2 7
    (by
      intro it hit
      have hT : tokenize ("Cl[OH2]".data)
          = [Except.ok ⟨Token.UnbracketedAtom ⟨AtomSymbol.Element Element.Cl, false⟩, 0, 2⟩,
             Except.ok ⟨Token.BracketedAtom
               ⟨AtomSymbol.Element Element.O, none, false, HydrogenCount.Explicit 2,
                 ⟨0⟩, 0, none⟩, 2, 7⟩] := by decide
      rw [hT] at hit
      simp only [List.mem_cons, List.not_mem_nil, or_false] at hit
      rcases hit with h | h <;> exact ⟨_, h⟩)
    (by decide)
    (by decide)
